import Mathlib

/-!
Verification of the aizoomdoc-server core against its specification.

This file gives a shallow embedding, in Lean 4, of the parts of the Python
source that the specification's testable claims are about:

* `app/services/queue_service.py`   — semaphore acquire/release discipline of
  `QueueService.execute_with_queue` (modelled as a trace of semaphore
  operations over an abstract run environment);
* `app/services/render_cache.py`    — `RenderCacheManager.get/put/_ensure_space`
  as a functional state machine over metadata rows plus a file store;
* `app/services/agent_service.py`   — `extract_answer_markdown`, the block-id
  validation in `_build_materials`, and `_apply_coverage_check`;
* `app/services/search_service.py`  — `parse_md_blocks`, `extract_terms`,
  `score_block`, `find_linked_blocks`, `suggest_additional_blocks`;
* `app/services/evidence_service.py` — `_crop_norm`.

Machine reals (Python floats carrying normalised bbox coordinates and the
half-unit coverage scores) are modelled as rationals: every constant that
appears (0.45, 0.55, 1.5, 0.5, 2.0, clamp bounds) is exactly representable,
and the operations used (min, max, comparison, floor of a product with an
integer) are exact at the values the code manipulates.  The MD5 used by the
cache for payload file names is modelled as the identity on keys (collision
freedom), and SQLite rows are modelled as an insertion-ordered list with the
UNIQUE(cache_key) constraint carried as a well-formedness predicate.
-/

/-! ### Canonical block identifiers

`agent_service.py` validates follow-up ids with
`re.match(r'^[A-Z0-9]{4}-[A-Z0-9]{4}-[A-Z0-9]{3}$', block_id)`.
`[A-Z0-9]` is the uppercase-alphanumeric class; Python's `$` also matches
just before a single trailing newline, which the embedding reproduces.  -/

def isUpperAlnum (c : Char) : Bool :=
  (('A' ≤ c && c ≤ 'Z') || ('0' ≤ c && c ≤ '9'))

/-- The core pattern `[A-Z0-9]{4}-[A-Z0-9]{4}-[A-Z0-9]{3}` against a whole
character list. -/
def canonicalCore (cs : List Char) : Bool :=
  match cs with
  | [a, b, c, d, h1, e, f, g, h, h2, x, y, z] =>
    h1 = '-' && h2 = '-' &&
      ([a, b, c, d, e, f, g, h, x, y, z].all isUpperAlnum)
  | _ => false

/-- `re.match(r'^[A-Z0-9]{4}-[A-Z0-9]{4}-[A-Z0-9]{3}$', s)` as a Boolean:
the anchored pattern matches the whole string, or the whole string minus a
single trailing newline (Python `$` semantics). -/
def isCanonicalBlockId (s : String) : Bool :=
  canonicalCore s.toList ||
    (match s.toList.reverse with
     | '\n' :: rest => canonicalCore rest.reverse
     | _ => false)

/-! ### `EvidenceService._crop_norm`

```python
x1, y1, x2, y2 = bbox_norm
w, h = img.size
x1 = max(0.0, min(1.0, x1)); ... (same for y1, x2, y2)
if x2 <= x1 or y2 <= y1: raise ValueError("Invalid bbox_norm for ROI")
left = int(x1 * w); top = int(y1 * h); right = int(x2 * w); bottom = int(y2 * h)
return img.crop((left, top, right, bottom))
```
After clamping into `[0, 1]` every coordinate is non-negative, so Python's
`int` truncation coincides with `Int.floor`.  -/

def clamp01 (x : ℚ) : ℚ := max 0 (min 1 x)

/-- The pixel rectangle `_crop_norm` hands to `img.crop`, or the
`ValueError` it raises. -/
def crop_norm (w h : ℕ) (x1 y1 x2 y2 : ℚ) : Except String (ℤ × ℤ × ℤ × ℤ) :=
  let cx1 := clamp01 x1
  let cy1 := clamp01 y1
  let cx2 := clamp01 x2
  let cy2 := clamp01 y2
  if cx2 ≤ cx1 ∨ cy2 ≤ cy1 then
    Except.error "Invalid bbox_norm for ROI"
  else
    Except.ok (⌊cx1 * w⌋, ⌊cy1 * h⌋, ⌊cx2 * w⌋, ⌊cy2 * h⌋)

/-! ### `extract_answer_markdown` (agent_service.py)

```python
pattern = r'"answer_markdown"\s*:\s*"'
match = re.search(pattern, partial_json)
if not match: return ""
...walk characters from match.end(), honouring backslash escapes...
```
-/

/-- Python `\s` (the ASCII whitespace characters it matches). -/
def isPyWs (c : Char) : Bool :=
  c = ' ' || c = '\t' || c = '\n' || c = '\r' || c = '\x0b' || c = '\x0c'

/-- Consume an exact literal, returning the rest of the input. -/
def consumeLit : List Char → List Char → Option (List Char)
  | [], cs => some cs
  | _ :: _, [] => none
  | l :: ls, c :: cs => if c = l then consumeLit ls cs else none

/-- The literal part of the pattern: `"answer_markdown"` with its quotes. -/
def amLit : List Char := '"' :: ("answer_markdown".toList ++ ['"'])

/-- Try the pattern `"answer_markdown"\s*:\s*"` anchored at the head of the
input; on success return the characters after the opening quote. -/
def amMatchAt (cs : List Char) : Option (List Char) :=
  match consumeLit amLit cs with
  | none => none
  | some r1 =>
    match r1.dropWhile isPyWs with
    | ':' :: r2 =>
      match r2.dropWhile isPyWs with
      | '"' :: r3 => some r3
      | _ => none
    | _ => none

/-- `re.search`: try the pattern at each position from the left; the first
success wins. -/
def amSearch : List Char → Option (List Char)
  | [] => none
  | c :: rest =>
    match amMatchAt (c :: rest) with
    | some r => some r
    | none => amSearch rest

/-- One escaped character, as decoded by the Python loop (`\\n` → newline,
`\\t` → tab, anything else — including `\"` and `\\\\` — maps to itself). -/
def unescapeChar (c : Char) : Char :=
  if c = 'n' then '\n' else if c = 't' then '\t' else c

/-- The character walk of `extract_answer_markdown`: stop at the first
unescaped `"` or at the end of the buffer; a backslash that is the last
character is kept verbatim. -/
def eamLoop : List Char → List Char
  | [] => []
  | '\\' :: [] => ['\\']
  | '\\' :: c :: rest => unescapeChar c :: eamLoop rest
  | '"' :: _ => []
  | c :: rest => c :: eamLoop rest

/-- `extract_answer_markdown(partial_json)`. -/
def extract_answer_markdown (partial_json : String) : String :=
  match amSearch partial_json.toList with
  | none => ""
  | some rest => (eamLoop rest).asString

/-! Specification-side reformulation of claim C5 (to be compared with the
source embedding above): locate the *first occurrence* of the field pattern
by index, then decode with an explicit escape-flag state machine.  -/

/-- Modelled from the claim's words: the first starting index at which the
field pattern matches, tried in increasing order over all positions. -/
def amFirstOccurrence (cs : List Char) : Option (List Char) :=
  match (List.range (cs.length + 1)).find? (fun n => (amMatchAt (cs.drop n)).isSome) with
  | some n => amMatchAt (cs.drop n)
  | none => none

/-- Modelled from the claim's words: escape-flag decoder.  The flag records
that a backslash is pending; an escaped quote is emitted, not a terminator;
decoding stops at the first unescaped quote or at the end of the buffer. -/
def decodeEsc : List Char → Bool → List Char
  | [], esc => if esc then ['\\'] else []
  | c :: rest, true => unescapeChar c :: decodeEsc rest false
  | c :: rest, false =>
    if c = '"' then []
    else if c = '\\' then decodeEsc rest true
    else c :: decodeEsc rest false

/-- The claim's description of the extractor, assembled from the two pieces
above. -/
def extractSpec (partial_json : String) : String :=
  match amFirstOccurrence partial_json.toList with
  | none => ""
  | some rest => (decodeEsc rest false).asString

/-! ### Python string helpers shared by `search_service.py`

`str.strip`, `str.splitlines`, `str.lower` and the regex classes `\s`, `\w`,
`\d`, `[A-Z0-9-]` are modelled over their ASCII behaviour (the artifacts the
parser consumes are ASCII apart from the arrow character `→`).  -/

def pyStrip (cs : List Char) : List Char :=
  ((cs.dropWhile isPyWs).reverse.dropWhile isPyWs).reverse

def pyStripS (s : String) : String := (pyStrip s.toList).asString

def pyLower (cs : List Char) : List Char := cs.map Char.toLower

/-- Split at `\n`, `\r\n` or `\r`, keeping a (possibly empty) final segment;
the final segment is empty exactly when the text ends in a line break. -/
def splitlinesGo : List Char → List Char → List (List Char)
  | [], acc => [acc.reverse]
  | '\r' :: '\n' :: rest, acc => acc.reverse :: splitlinesGo rest []
  | '\r' :: rest, acc => acc.reverse :: splitlinesGo rest []
  | '\n' :: rest, acc => acc.reverse :: splitlinesGo rest []
  | c :: rest, acc => splitlinesGo rest (c :: acc)

/-- `str.splitlines`: `""` gives no lines, and a trailing line break does not
produce a trailing empty line. -/
def pySplitlines (s : String) : List String :=
  match s.toList with
  | [] => []
  | cs =>
    let segs := splitlinesGo cs []
    let segs2 := if segs.getLast? = some [] then segs.dropLast else segs
    segs2.map List.asString

/-! ### `SearchService.parse_md_blocks` -/

structure ParsedBlock where
  block_id : String
  block_kind : String
  page_number : Nat
  content_raw : String
  linked_block_ids : List String
deriving DecidableEq

/-- The character class `[A-Z0-9-]` of the block-header id and the arrow-link
pattern. -/
def isLinkChar (c : Char) : Bool :=
  ('A' ≤ c && c ≤ 'Z') || ('0' ≤ c && c ≤ '9') || c = '-'

/-- `\s+`: at least one whitespace character, consumed greedily. -/
def consumeWs1 (cs : List Char) : Option (List Char) :=
  match cs with
  | c :: rest => if isPyWs c then some (rest.dropWhile isPyWs) else none
  | [] => none

/-- The alternation `(TEXT|IMAGE|TABLE)`. -/
def matchKind (cs : List Char) : Option (String × List Char) :=
  match consumeLit "TEXT".toList cs with
  | some r => some ("TEXT", r)
  | none =>
    match consumeLit "IMAGE".toList cs with
    | some r => some ("IMAGE", r)
    | none =>
      match consumeLit "TABLE".toList cs with
      | some r => some ("TABLE", r)
      | none => none

/-- `re.match(r"^###\s+BLOCK\s+\[(TEXT|IMAGE|TABLE)\]:\s+([A-Z0-9-]+)", line)`
returning `(kind, block_id)`; the id group is the maximal `[A-Z0-9-]` run. -/
def matchBlockHeader (l : List Char) : Option (String × String) :=
  (consumeLit "###".toList l).bind fun r1 =>
  (consumeWs1 r1).bind fun r2 =>
  (consumeLit "BLOCK".toList r2).bind fun r3 =>
  (consumeWs1 r3).bind fun r4 =>
  (consumeLit "[".toList r4).bind fun r5 =>
  (matchKind r5).bind fun kr =>
  (consumeLit "]:".toList kr.2).bind fun r7 =>
  (consumeWs1 r7).bind fun r8 =>
  let run := r8.takeWhile isLinkChar
  if run.isEmpty then none else some (kr.1, run.asString)

/-- `line.startswith("## ")`. -/
def startsWithPageMark (l : List Char) : Bool :=
  match l with
  | '#' :: '#' :: ' ' :: _ => true
  | _ => false

def trailingDigits (l : List Char) : List Char :=
  (l.reverse.takeWhile Char.isDigit).reverse

def digitsVal (ds : List Char) : Nat :=
  ds.foldl (fun a c => a * 10 + (c.toNat - 48)) 0

/-- `re.match(r"^##\s+.*?(\d+)\s*$", line)` on an already-stripped line that
starts with `## `: the lazy `.*?` / greedy `\d+` / `\s*$` combination makes
group 1 the maximal digit run at the end of the line, and the match succeeds
exactly when that run is non-empty. -/
def pageHeaderNum (l : List Char) : Option Nat :=
  let ds := trailingDigits l
  if ds.isEmpty then none else some (digitsVal ds)

/-- The scanning loop of `re.findall(r"→([A-Z0-9-]+)", content)`, with fuel:
every step consumes at least one character (in the token branch, one more
than the non-empty run), so fuel equal to the input length makes the fuel
irrelevant — it only makes the recursion structural. -/
def arrowLinksF : Nat → List Char → List String
  | 0, _ => []
  | _, [] => []
  | fuel + 1, c :: rest =>
    if c = '→' then
      let run := rest.takeWhile isLinkChar
      if run.isEmpty then arrowLinksF fuel rest
      else run.asString :: arrowLinksF fuel (rest.drop run.length)
    else arrowLinksF fuel rest

/-- `re.findall(r"→([A-Z0-9-]+)", content)`: every maximal non-empty
`[A-Z0-9-]` run immediately following an arrow, in order of occurrence. -/
def arrowLinks (cs : List Char) : List String := arrowLinksF cs.length cs

/-- The inner content loop: collect raw lines until the next block header or
page heading (both tested on the stripped line); return collected lines and
the remaining input. -/
def takeContent : List String → List String × List String
  | [] => ([], [])
  | l :: ls =>
    let st := (pyStripS l).toList
    if (matchBlockHeader st).isSome || startsWithPageMark st then ([], l :: ls)
    else
      let p := takeContent ls
      (l :: p.1, p.2)

/-- `page_number or 1`: `None` and `0` are both falsy in Python. -/
def pageOr1 (p : Option Nat) : Nat :=
  match p with
  | some n => if n = 0 then 1 else n
  | none => 1

/-- The main parser loop of `parse_md_blocks`, with fuel: every iteration
consumes at least one input line (`takeContent` returns a suffix of its
input), so fuel equal to the number of lines makes the fuel irrelevant — it
only makes the recursion structural. -/
def parseLoopF : Nat → List String → Option Nat → List ParsedBlock
  | 0, _, _ => []
  | _, [], _ => []
  | fuel + 1, line :: rest, page =>
    let st := (pyStripS line).toList
    if startsWithPageMark st then
      parseLoopF fuel rest (match pageHeaderNum st with | some n => some n | none => page)
    else
      match matchBlockHeader st with
      | some kb =>
        let p := takeContent rest
        let content := pyStripS (String.intercalate "\n" p.1)
        { block_id := kb.2, block_kind := kb.1, page_number := pageOr1 page,
          content_raw := content,
          linked_block_ids := arrowLinks content.toList } :: parseLoopF fuel p.2 page
      | none => parseLoopF fuel rest page

/-- `SearchService.parse_md_blocks`. -/
def parse_md_blocks (text : String) : List ParsedBlock :=
  if text = "" then []
  else parseLoopF (pySplitlines text).length (pySplitlines text) none

/-! ### `SearchService` scoring and coverage -/

/-- Python `\w` (ASCII behaviour). -/
def isWordChar (c : Char) : Bool :=
  ('a' ≤ c && c ≤ 'z') || ('A' ≤ c && c ≤ 'Z') || ('0' ≤ c && c ≤ '9') || c = '_'

/-- The scanning loop of `re.findall(r"\w+", s)`, with fuel: every step
consumes at least one character (a matched run is non-empty), so fuel equal
to the input length makes the fuel irrelevant — it only makes the recursion
structural. -/
def wordRunsF : Nat → List Char → List String
  | 0, _ => []
  | _, [] => []
  | fuel + 1, c :: rest =>
    if isWordChar c then
      ((c :: rest).takeWhile isWordChar).asString ::
        wordRunsF fuel ((c :: rest).drop ((c :: rest).takeWhile isWordChar).length)
    else wordRunsF fuel rest

/-- `re.findall(r"\w+", s)`: maximal non-empty word-character runs. -/
def wordRuns (cs : List Char) : List String := wordRunsF cs.length cs

/-- `SearchService.extract_terms`: word tokens of the lowercased query, of
length at least 2. -/
def extract_terms (query : String) : List String :=
  (wordRuns (pyLower query.toList)).filter (fun t => 2 ≤ t.length)

/-- Does the second list start with the first? -/
def startsWithList : List Char → List Char → Bool
  | [], _ => true
  | _ :: _, [] => false
  | t :: ts, c :: cs => t = c && startsWithList ts cs

/-- Python `t in content` for strings: substring containment. -/
def containsSub (t : List Char) : List Char → Bool
  | [] => startsWithList t []
  | c :: rest => startsWithList t (c :: rest) || containsSub t rest

/-- `SearchService.score_block`: term hits on the lowercased content
(+1.5 for a preferred page, −0.5 for content shorter than 20 chars).
The preferred-page set is modelled as a list whose membership is the set's;
Python's truthiness test on the set is the emptiness test on the list. -/
def score_block (b : ParsedBlock) (terms : List String)
    (preferredPages : List Nat) : ℚ :=
  let content := pyLower b.content_raw.toList
  let hits : ℚ := ((terms.filter (fun t => containsSub t.toList content)).length : ℚ)
  let s1 := if preferredPages ≠ [] ∧ b.page_number ∈ preferredPages
    then hits + 3/2 else hits
  if content.length < 20 then s1 - 1/2 else s1

/-- `dict.get` on the block map (keys are unique in a Python dict; the model
keeps the first binding). -/
def mapGet (m : List (String × ParsedBlock)) (k : String) : Option ParsedBlock :=
  match m.find? (fun kv => kv.1 = k) with
  | some kv => some kv.2
  | none => none

/-- Add an element to an insertion-ordered set. -/
def insertId (acc : List String) (x : String) : List String :=
  if x ∈ acc then acc else acc ++ [x]

/-- `SearchService.find_linked_blocks`: forward links of every selected block
present in the map, then every block of the map that links into the selected
set.  (Python iterates hash sets; the model fixes insertion order, which is
irrelevant to the membership facts proved below.) -/
def find_linked_blocks (selectedIds : List String)
    (blockMap : List (String × ParsedBlock)) : List String :=
  let fwd := selectedIds.foldl (fun acc bid =>
    match mapGet blockMap bid with
    | some b => b.linked_block_ids.foldl insertId acc
    | none => acc) []
  blockMap.foldl (fun acc kv =>
    kv.2.linked_block_ids.foldl (fun a lid =>
      if lid ∈ selectedIds then insertId a kv.2.block_id else a) acc) fwd

/-- Descending order on scored blocks: `scored.sort(key=lambda x: x[0],
reverse=True)`. -/
def rScore : (ℚ × ParsedBlock) → (ℚ × ParsedBlock) → Prop := fun x y => y.1 ≤ x.1

instance : DecidableRel rScore := fun x y => inferInstanceAs (Decidable (y.1 ≤ x.1))

instance : IsTotal (ℚ × ParsedBlock) rScore := ⟨fun a b => le_total b.1 a.1⟩

instance : IsTrans (ℚ × ParsedBlock) rScore := ⟨fun _ _ _ hab hbc => le_trans hbc hab⟩

/-- `SearchService.suggest_additional_blocks`: score the not-yet-selected
blocks, keep scores ≥ 2.0, sort by score descending (Python's `list.sort`
is stable; insertion sort is the stable sort modelling it), return the
first `max_add`. -/
def suggest_additional_blocks (blocks : List ParsedBlock)
    (selectedIds : List String) (query : String)
    (preferredPages : List Nat) (max_add : Nat) : List ParsedBlock :=
  let terms := extract_terms query
  let scored := blocks.foldl (fun acc b =>
    if b.block_id ∈ selectedIds then acc
    else
      let s := score_block b terms preferredPages
      if 2 ≤ s then acc ++ [(s, b)] else acc) ([] : List (ℚ × ParsedBlock))
  let sorted := scored.insertionSort rScore
  (sorted.take max_add).map (fun p => p.2)

/-! ### `AgentService._apply_coverage_check` -/

structure SelectedBlock where
  block_id : String
  block_kind : String
  page_number : Nat
  content_raw : String
  linked_block_ids : List String
deriving DecidableEq

structure ImageRequest where
  block_id : String
  reason : Option String
  priority : String
deriving DecidableEq

structure FlashResp where
  selected_blocks : List SelectedBlock
  requested_images : List ImageRequest
deriving DecidableEq

/-- Insert-or-overwrite into the insertion-ordered `new_blocks` dict. -/
def sbUpsert (m : List (String × SelectedBlock)) (b : SelectedBlock) :
    List (String × SelectedBlock) :=
  if m.any (fun kv => kv.1 = b.block_id) then
    m.map (fun kv => if kv.1 = b.block_id then (kv.1, b) else kv)
  else m ++ [(b.block_id, b)]

/-- The local helper `add_block_from_map` of `_apply_coverage_check`: skip if
already present or absent from the map, else convert the parsed block (page
forced to at least 1). -/
def add_block_from_map (blockMap : List (String × ParsedBlock))
    (m : List (String × SelectedBlock)) (bid : String) :
    List (String × SelectedBlock) :=
  if m.any (fun kv => kv.1 = bid) then m
  else
    match mapGet blockMap bid with
    | none => m
    | some block =>
      m ++ [(bid, { block_id := block.block_id, block_kind := block.block_kind,
                    page_number := max 1 block.page_number,
                    content_raw := block.content_raw,
                    linked_block_ids := block.linked_block_ids })]

/-- `AgentService._apply_coverage_check` (the `requested_rois` field is
untouched by the Python function and omitted from the model).  Preferred
pages are the truthy `page_number`s of the already-selected blocks. -/
def apply_coverage_check (resp : FlashResp)
    (blockMap : List (String × ParsedBlock)) (query : String)
    (max_add : Nat) : FlashResp :=
  let selectedIds := resp.selected_blocks.foldl (fun acc b => insertId acc b.block_id) []
  let linkedIds := find_linked_blocks selectedIds blockMap
  let preferredPages :=
    (resp.selected_blocks.filter (fun b => b.page_number ≠ 0)).map (fun b => b.page_number)
  let allBlocks := blockMap.map (fun kv => kv.2)
  let extra := suggest_additional_blocks allBlocks (selectedIds ++ linkedIds)
    query preferredPages max_add
  let nb0 := resp.selected_blocks.foldl sbUpsert []
  let nb1 := linkedIds.foldl (add_block_from_map blockMap) nb0
  let nb2 := extra.foldl (fun m b => add_block_from_map blockMap m b.block_id) nb1
  let reqIds0 := resp.requested_images.foldl (fun acc r => insertId acc r.block_id) []
  let final := nb2.foldl (fun (p : List ImageRequest × List String) kv =>
    if kv.2.block_kind = "IMAGE" ∧ kv.2.block_id ∉ p.2 then
      (p.1 ++ [{ block_id := kv.2.block_id, reason := some "coverage-check",
                 priority := "medium" }], p.2 ++ [kv.2.block_id])
    else p) (resp.requested_images, reqIds0)
  { selected_blocks := nb2.map (fun kv => kv.2), requested_images := final.1 }

/-! ### `RenderCacheManager` (render_cache.py)

Functional state machine over the SQLite metadata table (an insertion-ordered
row list with UNIQUE(cache_key)) and the payload file store (`renders_dir`,
an association list path ↦ bytes).  Time is abstract: `now` plays
`datetime.utcnow()` and `cfg.ttl` plays `timedelta(days=self.ttl_days)`, so
both TTL comparisons of the source (`utcnow - created_at > ttl` on read,
`created_at < utcnow - ttl` in the sweep) become `created_at + ttl < now`.
The MD5-of-key payload filename is modelled by the key itself (an injective
stand-in).  The optional rounded bbox is carried as its already-rendered
textual key component. -/

abbrev Bytes := List Nat

structure CacheCfg where
  enabled : Bool
  max_size_bytes : Nat
  ttl : Nat
deriving DecidableEq

structure CEntry where
  cache_key : String
  source_version : String
  file_path : String
  size_bytes : Nat
  created_at : Nat
  last_access_at : Nat
deriving DecidableEq

structure CacheState where
  entries : List CEntry
  files : List (String × Bytes)
deriving DecidableEq

/-- `_make_cache_key`: colon-joined components, bbox component last when
present. -/
def make_cache_key (sid ver : String) (page dpi : Nat) (bbox : Option String) : String :=
  String.intercalate ":"
    ([sid, ver, toString page, toString dpi] ++
      (match bbox with | some b => [b] | none => []))

def flookup (fs : List (String × Bytes)) (p : String) : Option Bytes :=
  match fs.find? (fun kv => kv.1 = p) with
  | some kv => some kv.2
  | none => none

def fwrite (fs : List (String × Bytes)) (p : String) (b : Bytes) : List (String × Bytes) :=
  if fs.any (fun kv => kv.1 = p) then
    fs.map (fun kv => if kv.1 = p then (p, b) else kv)
  else fs ++ [(p, b)]

def fdelete (fs : List (String × Bytes)) (p : String) : List (String × Bytes) :=
  fs.filter (fun kv => ¬ kv.1 = p)

def elookup (es : List CEntry) (k : String) : Option CEntry :=
  es.find? (fun e => e.cache_key = k)

/-- `_remove_entry`: unlink the payload file, delete the metadata row. -/
def removeEntry (st : CacheState) (e : CEntry) : CacheState :=
  { entries := st.entries.filter (fun x => ¬ x.cache_key = e.cache_key),
    files := fdelete st.files e.file_path }

/-- `SELECT COALESCE(SUM(size_bytes), 0) FROM cache_entries`. -/
def totalSize (es : List CEntry) : Nat :=
  (es.map (fun e => e.size_bytes)).sum

/-- `RenderCacheManager.get`. -/
def cacheGet (cfg : CacheCfg) (now : Nat) (sid ver : String) (page dpi : Nat)
    (bbox : Option String) (st : CacheState) : Option Bytes × CacheState :=
  if ¬ cfg.enabled then (none, st)
  else
    let key := make_cache_key sid ver page dpi bbox
    match elookup st.entries key with
    | none => (none, st)
    | some row =>
      if row.created_at + cfg.ttl < now then (none, removeEntry st row)
      else
        match flookup st.files row.file_path with
        | none => (none, removeEntry st row)
        | some b =>
          (some b,
           { st with entries := st.entries.map (fun x =>
               if x.cache_key = key then { x with last_access_at := now } else x) })

/-- `SELECT ... ORDER BY last_access_at ASC LIMIT 1`: the first row holding
the minimal last-access time. -/
def minLastAccess (es : List CEntry) : Option CEntry :=
  es.foldl (fun acc e =>
    match acc with
    | none => some e
    | some m => if e.last_access_at < m.last_access_at then some e else acc) none

/-- The TTL sweep at the head of `_ensure_space`. -/
def ttlSweep (cfg : CacheCfg) (now : Nat) (st : CacheState) : CacheState :=
  (st.entries.filter (fun e => e.created_at + cfg.ttl < now)).foldl removeEntry st

/-- The LRU eviction loop of `_ensure_space`.  The fuel equals the number of
rows at entry; every iteration that does not exit removes the row it
selected, so the table is empty before the fuel is — the loop never stops
because of the fuel. -/
def evictLoop (cfg : CacheCfg) (needed : Nat) : Nat → CacheState → Nat → CacheState
  | 0, st, _ => st
  | fuel + 1, st, total =>
    if total + needed ≤ cfg.max_size_bytes then st
    else
      match minLastAccess st.entries with
      | none => st
      | some e => evictLoop cfg needed fuel (removeEntry st e) (total - e.size_bytes)

/-- `RenderCacheManager._ensure_space`. -/
def ensure_space (cfg : CacheCfg) (now : Nat) (needed : Nat) (st : CacheState) : CacheState :=
  let st1 := ttlSweep cfg now st
  evictLoop cfg needed st1.entries.length st1 (totalSize st1.entries)

/-- `INSERT ... ON CONFLICT(cache_key) DO UPDATE` (updates in place,
preserving the row's position; otherwise appends). -/
def upsertEntry (es : List CEntry) (key ver path : String) (size now : Nat) : List CEntry :=
  if es.any (fun e => e.cache_key = key) then
    es.map (fun e =>
      if e.cache_key = key then
        { e with source_version := ver, file_path := path, size_bytes := size,
                 created_at := now, last_access_at := now }
      else e)
  else
    es ++ [{ cache_key := key, source_version := ver, file_path := path,
             size_bytes := size, created_at := now, last_access_at := now }]

/-- `RenderCacheManager.put` (the non-throwing execution: the Python
`except` branch covers I/O failures outside this model). -/
def cachePut (cfg : CacheCfg) (now : Nat) (sid ver : String) (page dpi : Nat)
    (png : Bytes) (bbox : Option String) (st : CacheState) : Bool × CacheState :=
  if ¬ cfg.enabled then (false, st)
  else
    let key := make_cache_key sid ver page dpi bbox
    let path := key
    let size := png.length
    let st1 := ensure_space cfg now size st
    let st2 : CacheState := { st1 with files := fwrite st1.files path png }
    let st3 : CacheState := { st2 with entries := upsertEntry st2.entries key ver path size now }
    (true, st3)

/-- UNIQUE(cache_key): no two rows share a key. -/
def keysNodup : List CEntry → Bool
  | [] => true
  | e :: rest => (!rest.any (fun x => x.cache_key = e.cache_key)) && keysNodup rest

/-- Well-formed metadata: unique keys and every row's payload path is the
(injectively modelled) hash of its key. -/
def cacheWF (st : CacheState) : Bool :=
  keysNodup st.entries && st.entries.all (fun e => e.file_path = e.cache_key)

/-! ### `QueueService.execute_with_queue` semaphore discipline

The claim is about the semaphore operations of one run, so the embedding
records the trace of semaphore operations the run performs, indexed by an
abstract run environment: whether a slot freed up within
`queue_timeout_seconds` (`acquire` returns True) or not (`asyncio.TimeoutError`,
`acquire` returns False), whether the consumer cancelled the stream while the
run was still waiting for admission, and whether the producer raised.  In
the source, `release()` is invoked from the `finally:` block of
`execute_with_queue` on every exit path, and after popping the bookkeeping
maps it unconditionally runs `self._semaphore.release()`. -/

inductive SemOp
  | acq
  | rel
deriving DecidableEq

/-- `QueueService.acquire`: on success the semaphore is decremented and True
returned; on `asyncio.TimeoutError` the request is dropped from the waiting
list and False returned — the semaphore was not acquired. -/
def acquireTrace (slotFreedInTime : Bool) : List SemOp × Bool :=
  if slotFreedInTime then ([SemOp.acq], true) else ([], false)

/-- `QueueService.release`: after the bookkeeping pop (which tolerates an
absent entry), `self._semaphore.release()` runs unconditionally. -/
def releaseTrace : List SemOp := [SemOp.rel]

structure RunEnv where
  slotFreedInTime : Bool
  cancelledWhileWaiting : Bool
  producerRaises : Bool
deriving DecidableEq

/-- The semaphore-operation trace of one `execute_with_queue` run: the `try`
body performs the acquire attempt unless cancellation interrupts the wait
(the producer itself touches no semaphore, whether it completes or raises),
and the `finally:` block always appends the release. -/
def execute_with_queue_semTrace (env : RunEnv) : List SemOp :=
  let body :=
    if env.cancelledWhileWaiting then []
    else (acquireTrace env.slotFreedInTime).1
  body ++ releaseTrace

def countOp (t : List SemOp) (o : SemOp) : Nat :=
  (t.filter (fun x => x = o)).length

/-! ### `AgentService._build_materials` per-item validation

The claim is about which per-item side effects run, so the embedding records
the action trace of the two request loops.  Crop resolution (blocks-index
lookup, fallback paths, download) is abstracted into one oracle returning
the crop bytes an item would obtain; `_is_pdf_bytes` is `data[:4] == b"%PDF"`. -/

inductive MatAction
  | logInvalidId (bid : String)
  | cropLookup (bid : String)
  | logMissingCrop (bid : String)
  | logNonPdf (bid : String)
  | render (bid : String)
  | upload (bid : String)
deriving DecidableEq

def is_pdf_bytes (data : Bytes) : Bool :=
  data.take 4 = [37, 80, 68, 70]

structure ROIRequest where
  block_id : String
  page : Option Nat
  dpi : Option Nat
deriving DecidableEq

/-- Crop resolution as seen by one item: `_find_crop_by_image_id` plus the
download fallbacks, collapsed to the bytes the item ends up with. -/
structure MatEnv where
  cropBytes : String → Option Bytes

/-- One iteration of the `requested_images` loop of `_build_materials`. -/
def processImageRequest (env : MatEnv) (req : ImageRequest) : List MatAction :=
  if ¬ isCanonicalBlockId req.block_id then [MatAction.logInvalidId req.block_id]
  else
    MatAction.cropLookup req.block_id ::
      (match env.cropBytes req.block_id with
       | none => [MatAction.logMissingCrop req.block_id]
       | some b =>
         if ¬ is_pdf_bytes b then [MatAction.logNonPdf req.block_id]
         else [MatAction.render req.block_id, MatAction.upload req.block_id])

/-- The DPI clamp of the ROI loop: `roi.dpi or 300`, then into `[72, 400]`. -/
def clampDpi (dpi : Option Nat) : Nat :=
  let d := match dpi with | some n => if n = 0 then 300 else n | none => 300
  if d < 72 then 72 else if d > 400 then 400 else d

/-- One iteration of the `requested_rois` loop of `_build_materials` (crop
PDFs are single-page, page is forced to 0 before the render). -/
def processRoiRequest (env : MatEnv) (roi : ROIRequest) : List MatAction :=
  if ¬ isCanonicalBlockId roi.block_id then [MatAction.logInvalidId roi.block_id]
  else
    MatAction.cropLookup roi.block_id ::
      (match env.cropBytes roi.block_id with
       | none => [MatAction.logMissingCrop roi.block_id]
       | some b =>
         if ¬ is_pdf_bytes b then [MatAction.logNonPdf roi.block_id]
         else
           let _dpi := clampDpi roi.dpi
           let _page := 0
           [MatAction.render roi.block_id, MatAction.upload roi.block_id])

/-- The action trace of `_build_materials` over both request loops. -/
def build_materials_trace (env : MatEnv) (imgs : List ImageRequest)
    (rois : List ROIRequest) : List MatAction :=
  (imgs.map (processImageRequest env)).flatten ++
    (rois.map (processRoiRequest env)).flatten

/-! ### Interleaved cache operations (for the put/get round trip)

A later `put` is the only intervening operation the round-trip claim allows;
`applyPuts` folds a list of them over the state. -/

structure PutOp where
  now : Nat
  sid : String
  ver : String
  page : Nat
  dpi : Nat
  png : Bytes
  bbox : Option String

def putKey (op : PutOp) : String :=
  make_cache_key op.sid op.ver op.page op.dpi op.bbox

def applyPuts (cfg : CacheCfg) (ops : List PutOp) (st : CacheState) : CacheState :=
  ops.foldl (fun s op =>
    (cachePut cfg op.now op.sid op.ver op.page op.dpi op.png op.bbox s).2) st

/-! ### Concrete data used by counterexamples and witnesses -/

def c6A : ParsedBlock :=
  { block_id := "AAAA-AAAA-001", block_kind := "TEXT", page_number := 1,
    content_raw := "→AAAA-AAAA-002", linked_block_ids := ["AAAA-AAAA-002"] }

def c6B : ParsedBlock :=
  { block_id := "AAAA-AAAA-002", block_kind := "TEXT", page_number := 1,
    content_raw := "→AAAA-AAAA-003", linked_block_ids := ["AAAA-AAAA-003"] }

def c6C : ParsedBlock :=
  { block_id := "AAAA-AAAA-003", block_kind := "TEXT", page_number := 1,
    content_raw := "content-c", linked_block_ids := [] }

def c6map : List (String × ParsedBlock) :=
  [("AAAA-AAAA-001", c6A), ("AAAA-AAAA-002", c6B), ("AAAA-AAAA-003", c6C)]

def c6selA : SelectedBlock :=
  { block_id := "AAAA-AAAA-001", block_kind := "TEXT", page_number := 1,
    content_raw := "→AAAA-AAAA-002", linked_block_ids := ["AAAA-AAAA-002"] }

def c6resp : FlashResp := { selected_blocks := [c6selA], requested_images := [] }

def c7img : ParsedBlock :=
  { block_id := "AAAA-AAAA-004", block_kind := "IMAGE", page_number := 1,
    content_raw := "alpha beta gamma delta content", linked_block_ids := [] }

def c8text : String := "### BLOCK [TEXT]: AAAA-BBBB-001\nsee \u2192ABC here"

def c8goodText : String := "### BLOCK [TEXT]: AAAA-BBBB-001\n\u2192AAAA-BBBB-002 more"

def c8goodBlock : ParsedBlock :=
  { block_id := "AAAA-BBBB-001", block_kind := "TEXT", page_number := 1,
    content_raw := "\u2192AAAA-BBBB-002 more", linked_block_ids := ["AAAA-BBBB-002"] }

/-! ## Supporting lemmas: cache metadata bookkeeping -/

theorem keysNodup_iff (es : List CEntry) :
    keysNodup es = true ↔ (es.map (fun e => e.cache_key)).Nodup := by
  induction es with
  | nil => simp [keysNodup]
  | cons e rest ih =>
    simp only [keysNodup, Bool.and_eq_true, ih, List.map_cons, List.nodup_cons,
      List.mem_map, Bool.not_eq_true']
    constructor
    · rintro ⟨h1, h2⟩
      refine ⟨?_, h2⟩
      rintro ⟨x, hx, hk⟩
      have hx2 : rest.any (fun x => x.cache_key = e.cache_key) = true :=
        List.any_eq_true.mpr ⟨x, hx, by simp [hk]⟩
      simp [hx2] at h1
    · rintro ⟨h1, h2⟩
      refine ⟨?_, h2⟩
      by_contra hc
      rw [Bool.not_eq_false] at hc
      obtain ⟨x, hx, hk⟩ := List.any_eq_true.mp hc
      exact h1 ⟨x, hx, by simpa using hk⟩

theorem keysNodup_filter (es : List CEntry) (p : CEntry → Bool)
    (h : keysNodup es = true) : keysNodup (es.filter p) = true := by
  rw [keysNodup_iff] at h ⊢
  exact h.sublist ((List.filter_sublist (p := p) es).map _)

theorem keysNodup_removeEntry (st : CacheState) (e : CEntry)
    (h : keysNodup st.entries = true) : keysNodup (removeEntry st e).entries = true :=
  keysNodup_filter _ _ h

theorem minLastAccess_isSome_of_acc (es : List CEntry) (e : CEntry) :
    (es.foldl (fun acc x =>
      match acc with
      | none => some x
      | some m => if x.last_access_at < m.last_access_at then some x else acc) (some e)).isSome := by
  induction es generalizing e with
  | nil => rfl
  | cons a rest ih =>
    simp only [List.foldl_cons]
    split
    · exact ih a
    · exact ih e

theorem minLastAccess_eq_none (es : List CEntry) :
    minLastAccess es = none ↔ es = [] := by
  cases es with
  | nil => simp [minLastAccess]
  | cons a rest =>
    simp only [minLastAccess, List.foldl_cons]
    constructor
    · intro h
      have h2 := minLastAccess_isSome_of_acc rest a
      rw [h] at h2
      simp at h2
    · intro h
      exact absurd h (by simp)

theorem minLastAccess_step_cases (acc : Option CEntry) (a e : CEntry)
    (h : (match acc with
          | none => some a
          | some m => if a.last_access_at < m.last_access_at then some a else acc) = some e) :
    acc = some e ∨ e = a := by
  cases acc with
  | none => right; cases h; rfl
  | some m =>
    simp only at h
    split at h
    · right; cases h; rfl
    · left; exact h

theorem minLastAccess_mem_aux (es : List CEntry) :
    ∀ (acc : Option CEntry) (e : CEntry),
      es.foldl (fun acc x =>
        match acc with
        | none => some x
        | some m => if x.last_access_at < m.last_access_at then some x else acc) acc = some e →
      acc = some e ∨ e ∈ es := by
  induction es with
  | nil => intro acc e h; exact Or.inl h
  | cons a rest ih =>
    intro acc e h
    simp only [List.foldl_cons] at h
    rcases ih _ e h with h2 | h2
    · rcases minLastAccess_step_cases acc a e h2 with h3 | h3
      · exact Or.inl h3
      · exact Or.inr (by simp [h3])
    · exact Or.inr (List.mem_cons_of_mem a h2)

theorem minLastAccess_mem (es : List CEntry) (e : CEntry)
    (h : minLastAccess es = some e) : e ∈ es := by
  rcases minLastAccess_mem_aux es none e h with h2 | h2
  · cases h2
  · exact h2

theorem filter_remove_sizes (es : List CEntry) (e : CEntry) :
    keysNodup es = true → e ∈ es →
    totalSize (es.filter (fun x => ¬ x.cache_key = e.cache_key)) + e.size_bytes
      = totalSize es ∧
    (es.filter (fun x => ¬ x.cache_key = e.cache_key)).length + 1 = es.length := by
  induction es with
  | nil => intro _ he; cases he
  | cons a rest ih =>
    intro h he
    simp only [keysNodup, Bool.and_eq_true, Bool.not_eq_true'] at h
    obtain ⟨hna, hnd⟩ := h
    by_cases hk : a.cache_key = e.cache_key
    · have hea : e = a := by
        rcases List.mem_cons.mp he with h2 | h2
        · exact h2
        · have h3 : rest.any (fun x => x.cache_key = a.cache_key) = true :=
            List.any_eq_true.mpr ⟨e, h2, by simp [hk]⟩
          simp [h3] at hna
      subst hea
      have hrest : rest.filter (fun x => ¬ x.cache_key = e.cache_key) = rest := by
        rw [List.filter_eq_self]
        intro x hx
        have h4 : ¬ x.cache_key = e.cache_key := by
          intro h5
          have h6 : rest.any (fun y => y.cache_key = e.cache_key) = true :=
            List.any_eq_true.mpr ⟨x, hx, by simp [h5]⟩
          rw [hk] at hna
          simp [h6] at hna
        simpa using h4
      constructor
      · simp only [List.filter_cons]
        rw [if_neg (by simp), hrest]
        simp only [totalSize, List.map_cons, List.sum_cons]
        omega
      · simp only [List.filter_cons]
        rw [if_neg (by simp), hrest]
        simp [List.length_cons]
    · have hemem : e ∈ rest := by
        rcases List.mem_cons.mp he with h2 | h2
        · exact absurd (by rw [h2]) hk
        · exact h2
      obtain ⟨ihs, ihl⟩ := ih hnd hemem
      constructor
      · simp only [List.filter_cons]
        rw [if_pos (by simpa using hk)]
        simp only [totalSize, List.map_cons, List.sum_cons] at ihs ⊢
        omega
      · simp only [List.filter_cons]
        rw [if_pos (by simpa using hk)]
        simp only [List.length_cons] at ihl ⊢
        omega

theorem removeEntry_sizes (st : CacheState) (e : CEntry)
    (h : keysNodup st.entries = true) (he : e ∈ st.entries) :
    totalSize (removeEntry st e).entries + e.size_bytes = totalSize st.entries ∧
    (removeEntry st e).entries.length + 1 = st.entries.length :=
  filter_remove_sizes st.entries e h he

theorem evictLoop_keysNodup (cfg : CacheCfg) (needed : Nat) :
    ∀ (fuel : Nat) (st : CacheState) (total : Nat),
      keysNodup st.entries = true →
      keysNodup (evictLoop cfg needed fuel st total).entries = true := by
  intro fuel
  induction fuel with
  | zero => intro st total h; exact h
  | succ n ih =>
    intro st total h
    simp only [evictLoop]
    split
    · exact h
    · split
      · exact h
      · exact ih _ _ (keysNodup_removeEntry _ _ h)

theorem evictLoop_budget (cfg : CacheCfg) (needed : Nat) :
    ∀ (fuel : Nat) (st : CacheState) (total : Nat),
      keysNodup st.entries = true →
      total = totalSize st.entries →
      st.entries.length ≤ fuel →
      totalSize (evictLoop cfg needed fuel st total).entries + needed ≤ cfg.max_size_bytes ∨
      (evictLoop cfg needed fuel st total).entries = [] := by
  intro fuel
  induction fuel with
  | zero =>
    intro st total _ _ hlen
    right
    simpa [evictLoop] using List.length_eq_zero.mp (Nat.le_zero.mp hlen)
  | succ n ih =>
    intro st total hnd htot hlen
    simp only [evictLoop]
    split
    · left; omega
    · split
      · next hmin =>
        right
        exact (minLastAccess_eq_none st.entries).mp hmin
      · next e hmin =>
        have hmem := minLastAccess_mem st.entries e hmin
        obtain ⟨hs, hl⟩ := removeEntry_sizes st e hnd hmem
        exact ih (removeEntry st e) (total - e.size_bytes)
          (keysNodup_removeEntry st e hnd) (by omega) (by omega)

theorem keysNodup_foldl_removeEntry (l : List CEntry) :
    ∀ (st : CacheState), keysNodup st.entries = true →
      keysNodup ((l.foldl removeEntry st).entries) = true := by
  induction l with
  | nil => intro st h; exact h
  | cons e rest ih =>
    intro st h
    exact ih _ (keysNodup_removeEntry st e h)

theorem keysNodup_ttlSweep (cfg : CacheCfg) (now : Nat) (st : CacheState)
    (h : keysNodup st.entries = true) :
    keysNodup (ttlSweep cfg now st).entries = true :=
  keysNodup_foldl_removeEntry _ st h

theorem map_keep_of_no_match (es : List CEntry) (key : String) (f : CEntry → CEntry)
    (h : es.any (fun e => e.cache_key = key) = false) :
    es.map (fun e => if e.cache_key = key then f e else e) = es := by
  induction es with
  | nil => rfl
  | cons a rest ih =>
    simp only [List.any_cons, Bool.or_eq_false_iff] at h
    simp only [List.map_cons]
    rw [if_neg (by simpa using h.1), ih h.2]

theorem totalSize_upsert_le (es : List CEntry) (key ver path : String)
    (size now : Nat) (h : keysNodup es = true) :
    totalSize (upsertEntry es key ver path size now) ≤ totalSize es + size := by
  induction es with
  | nil => simp [upsertEntry, totalSize]
  | cons a rest ih =>
    simp only [keysNodup, Bool.and_eq_true, Bool.not_eq_true'] at h
    obtain ⟨hna, hnd⟩ := h
    by_cases hk : a.cache_key = key
    · have hany : (a :: rest).any (fun e => e.cache_key = key) = true := by
        simp [hk]
      have hrest : rest.any (fun e => e.cache_key = key) = false := by
        by_contra hc
        rw [Bool.not_eq_false] at hc
        obtain ⟨x, hx, hxk⟩ := List.any_eq_true.mp hc
        have h6 : rest.any (fun y => y.cache_key = a.cache_key) = true :=
          List.any_eq_true.mpr ⟨x, hx, by simp at hxk; simp [hxk, hk]⟩
        simp [h6] at hna
      simp only [upsertEntry, hany, if_true, List.map_cons, if_pos hk]
      rw [map_keep_of_no_match rest key _ hrest]
      simp only [totalSize, List.map_cons, List.sum_cons]
      omega
    · by_cases hrany : rest.any (fun e => e.cache_key = key) = true
      · have hany : (a :: rest).any (fun e => e.cache_key = key) = true := by
          simp [hrany]
        have ihle := ih hnd
        simp only [upsertEntry, hrany, if_true] at ihle
        simp only [upsertEntry, hany, if_true, List.map_cons, if_neg hk]
        simp only [totalSize, List.map_cons, List.sum_cons] at ihle ⊢
        omega
      · have hany : (a :: rest).any (fun e => e.cache_key = key) = false := by
          simp only [List.any_cons, Bool.or_eq_false_iff]
          exact ⟨by simpa using hk, by simpa using hrany⟩
        have ihle := ih hnd
        simp only [upsertEntry, Bool.not_eq_true] at ihle ⊢
        rw [hany] at *
        simp only [Bool.false_eq_true, if_false] at *
        rw [if_neg (by simp [hrany])] at ihle
        simp only [totalSize, List.map_append, List.map_cons, List.sum_append, List.sum_cons,
          List.map_nil, List.sum_nil] at ihle ⊢
        omega

/-! ## Claim theorems -/

/-- C1: the claim asserts that in `execute_with_queue` no semaphore release
ever occurs without a prior matching successful acquire.  The code violates
this on the admission-timeout path: `acquire` returns False without holding
the semaphore, yet the `finally:` block still runs `release()`, which calls
`self._semaphore.release()` unconditionally.  The trace of such a run is a
single release with zero acquires. -/
theorem C1_release_without_acquire :
    execute_with_queue_semTrace
        { slotFreedInTime := false, cancelledWhileWaiting := false,
          producerRaises := false } = [SemOp.rel] ∧
    countOp (execute_with_queue_semTrace
        { slotFreedInTime := false, cancelledWhileWaiting := false,
          producerRaises := false }) SemOp.acq = 0 ∧
    countOp (execute_with_queue_semTrace
        { slotFreedInTime := false, cancelledWhileWaiting := false,
          producerRaises := false }) SemOp.rel = 1 := by
  constructor
  · rfl
  · constructor <;> rfl

/-- C3 (counterexample to the claim as stated): a payload whose own size
exceeds `max_size_bytes` is still stored — `_ensure_space` empties the table,
its eviction loop breaks on `oldest is None`, and `put` then writes the row —
so after that put the total size exceeds the budget.  Concretely: an enabled
cache with a 10-byte budget accepts an 11-byte payload. -/
theorem C3_counterexample :
    (cachePut { enabled := true, max_size_bytes := 10, ttl := 5 } 0 "s" "v" 0 150
        (List.replicate 11 0) none { entries := [], files := [] }).1 = true ∧
    totalSize (cachePut { enabled := true, max_size_bytes := 10, ttl := 5 } 0 "s" "v" 0 150
        (List.replicate 11 0) none { entries := [], files := [] }).2.entries = 11 ∧
    ¬ (totalSize (cachePut { enabled := true, max_size_bytes := 10, ttl := 5 } 0 "s" "v" 0 150
        (List.replicate 11 0) none { entries := [], files := [] }).2.entries
        ≤ ({ enabled := true, max_size_bytes := 10, ttl := 5 } : CacheCfg).max_size_bytes) := by
  refine ⟨rfl, rfl, by decide⟩

/-- C3 (amended): after every completed `put` whose payload is at most
`max_size_bytes`, the sum of `size_bytes` over the live rows is at most
`max_size_bytes` — `put` first sweeps TTL-expired rows, then evicts
least-recently-accessed rows until the payload fits, and the upsert can only
lower the pre-existing row's contribution.  (The claim's extension to
payloads larger than the budget is refuted by the counterexample above.) -/
theorem C3_budget_after_put (cfg : CacheCfg) (st0 : CacheState)
    (sid ver : String) (page dpi : Nat) (png : Bytes) (bbox : Option String)
    (tPut : Nat) (hen : cfg.enabled = true)
    (hnd : keysNodup st0.entries = true)
    (hsize : png.length ≤ cfg.max_size_bytes) :
    (cachePut cfg tPut sid ver page dpi png bbox st0).1 = true ∧
    totalSize (cachePut cfg tPut sid ver page dpi png bbox st0).2.entries
      ≤ cfg.max_size_bytes := by
  unfold cachePut
  rw [if_neg (by simp [hen])]
  refine ⟨rfl, ?_⟩
  show totalSize (upsertEntry (ensure_space cfg tPut png.length st0).entries
      (make_cache_key sid ver page dpi bbox) ver (make_cache_key sid ver page dpi bbox)
      png.length tPut) ≤ cfg.max_size_bytes
  have hS : ensure_space cfg tPut png.length st0 =
      evictLoop cfg png.length (ttlSweep cfg tPut st0).entries.length
        (ttlSweep cfg tPut st0) (totalSize (ttlSweep cfg tPut st0).entries) := rfl
  rw [hS]
  set stS := ttlSweep cfg tPut st0 with hstS
  have hndS : keysNodup stS.entries = true := keysNodup_ttlSweep cfg tPut st0 hnd
  set stE := evictLoop cfg png.length stS.entries.length stS (totalSize stS.entries) with hstE
  have hndE : keysNodup stE.entries = true :=
    evictLoop_keysNodup cfg png.length _ stS _ hndS
  have hbud := evictLoop_budget cfg png.length stS.entries.length stS
    (totalSize stS.entries) hndS rfl (Nat.le_refl _)
  rw [← hstE] at hbud
  have hup := totalSize_upsert_le stE.entries
    (make_cache_key sid ver page dpi bbox) ver (make_cache_key sid ver page dpi bbox)
    png.length tPut hndE
  rcases hbud with hb | hb
  · omega
  · rw [hb] at hup ⊢
    simp only [upsertEntry, List.any_nil, Bool.false_eq_true, if_false, List.nil_append,
      totalSize, List.map_cons, List.map_nil, List.sum_cons, List.sum_nil]
    omega

/-- C10: with `enabled = false` both cache operations return immediately —
`get` yields `None`, `put` yields `False` — and the state (metadata rows and
payload files) is untouched, so the §8 cache invariants are conditional on
the cache being enabled. -/
theorem C10_disabled_cache_inert (cfg : CacheCfg) (now : Nat) (sid ver : String)
    (page dpi : Nat) (bbox : Option String) (png : Bytes) (st : CacheState)
    (hdis : cfg.enabled = false) :
    cacheGet cfg now sid ver page dpi bbox st = (none, st) ∧
    cachePut cfg now sid ver page dpi png bbox st = (false, st) := by
  constructor
  · unfold cacheGet
    rw [if_pos (by simp [hdis])]
  · unfold cachePut
    rw [if_pos (by simp [hdis])]

/-- Witness for C10 at a concrete disabled configuration and non-empty
state. -/
theorem C10_disabled_cache_inert_witness :
    cacheGet { enabled := false, max_size_bytes := 100, ttl := 14 } 3 "s" "v" 0 150 none
        { entries := [{ cache_key := "k", source_version := "v", file_path := "k",
                        size_bytes := 2, created_at := 0, last_access_at := 0 }],
          files := [("k", [9, 9])] }
      = (none,
         { entries := [{ cache_key := "k", source_version := "v", file_path := "k",
                         size_bytes := 2, created_at := 0, last_access_at := 0 }],
           files := [("k", [9, 9])] }) ∧
    cachePut { enabled := false, max_size_bytes := 100, ttl := 14 } 3 "s" "v" 0 150 [1, 2, 3] none
        { entries := [{ cache_key := "k", source_version := "v", file_path := "k",
                        size_bytes := 2, created_at := 0, last_access_at := 0 }],
          files := [("k", [9, 9])] }
      = (false,
         { entries := [{ cache_key := "k", source_version := "v", file_path := "k",
                         size_bytes := 2, created_at := 0, last_access_at := 0 }],
           files := [("k", [9, 9])] }) :=
  C10_disabled_cache_inert _ 3 "s" "v" 0 150 none [1, 2, 3] _ rfl

/-- C9: `_crop_norm` first clamps each normalised coordinate into `[0, 1]`,
raises `ValueError` exactly when the clamped box is degenerate
(`x2 ≤ x1` or `y2 ≤ y1`), and otherwise crops at the floor of each clamped
coordinate times the image dimension; `(−0.1, 0, 1.1, 1)` clamps to
`(0, 0, 1, 1)`. -/
theorem C9_crop_norm_clamp_floor (w h : ℕ) (x1 y1 x2 y2 : ℚ) :
    (crop_norm w h x1 y1 x2 y2 = Except.error "Invalid bbox_norm for ROI" ↔
      (clamp01 x2 ≤ clamp01 x1 ∨ clamp01 y2 ≤ clamp01 y1)) ∧
    (¬ (clamp01 x2 ≤ clamp01 x1 ∨ clamp01 y2 ≤ clamp01 y1) →
      crop_norm w h x1 y1 x2 y2 =
        Except.ok (⌊clamp01 x1 * (w : ℚ)⌋, ⌊clamp01 y1 * (h : ℚ)⌋,
                   ⌊clamp01 x2 * (w : ℚ)⌋, ⌊clamp01 y2 * (h : ℚ)⌋)) ∧
    clamp01 (-1/10 : ℚ) = 0 ∧ clamp01 (11/10 : ℚ) = 1 := by
  refine ⟨?_, ?_, by norm_num [clamp01], by norm_num [clamp01]⟩
  · unfold crop_norm
    dsimp only
    split
    · next hdeg => simp [hdeg]
    · next hdeg => simp [hdeg]
  · intro hnd
    unfold crop_norm
    dsimp only
    rw [if_neg hnd]

/-- Witness for C9 on the non-degenerate box `(0, 0, 1, 1)` of a 7×7 image:
the hypothesis of the non-degenerate branch holds and the crop is the full
image. -/
theorem C9_crop_norm_clamp_floor_witness :
    ¬ (clamp01 (1 : ℚ) ≤ clamp01 (0 : ℚ) ∨ clamp01 (1 : ℚ) ≤ clamp01 (0 : ℚ)) ∧
    crop_norm 7 7 0 0 1 1 = Except.ok (0, 0, 7, 7) := by
  have h := (C9_crop_norm_clamp_floor 7 7 0 0 1 1).2.1 (by norm_num [clamp01])
  refine ⟨by norm_num [clamp01], ?_⟩
  rw [h]
  norm_num [clamp01]

/-- C4: in `_build_materials` every image request and every ROI request whose
`block_id` fails the canonical-regex test is skipped with only a log entry —
no crop lookup, render, or upload happens for it — and consequently every id
reaching the crop lookup, the renderer, or the upload step is canonical. -/
theorem C4_invalid_ids_skipped (env : MatEnv) (imgs : List ImageRequest)
    (rois : List ROIRequest) :
    (∀ req ∈ imgs, isCanonicalBlockId req.block_id = false →
      processImageRequest env req = [MatAction.logInvalidId req.block_id]) ∧
    (∀ roi ∈ rois, isCanonicalBlockId roi.block_id = false →
      processRoiRequest env roi = [MatAction.logInvalidId roi.block_id]) ∧
    (∀ bid, MatAction.cropLookup bid ∈ build_materials_trace env imgs rois →
      isCanonicalBlockId bid = true) ∧
    (∀ bid, MatAction.render bid ∈ build_materials_trace env imgs rois →
      isCanonicalBlockId bid = true) ∧
    (∀ bid, MatAction.upload bid ∈ build_materials_trace env imgs rois →
      isCanonicalBlockId bid = true) := by
  have himg : ∀ (req : ImageRequest) (bid : String) (a : MatAction),
      a ∈ processImageRequest env req →
      (a = MatAction.cropLookup bid ∨ a = MatAction.render bid ∨ a = MatAction.upload bid) →
      isCanonicalBlockId bid = true := by
    intro req bid a ha hshape
    unfold processImageRequest at ha
    by_cases hc : isCanonicalBlockId req.block_id = true
    · rw [if_neg (by simp [hc])] at ha
      rcases hx : env.cropBytes req.block_id with _ | b <;> rw [hx] at ha <;> dsimp only at ha
      · rcases hshape with h2 | h2 | h2 <;> subst h2 <;> simp_all
      · rcases hshape with h2 | h2 | h2 <;> subst h2 <;> split at ha <;> simp_all
    · rw [if_pos (by simpa using hc)] at ha
      rcases hshape with h2 | h2 | h2 <;> subst h2 <;> simp_all
  have hroi : ∀ (roi : ROIRequest) (bid : String) (a : MatAction),
      a ∈ processRoiRequest env roi →
      (a = MatAction.cropLookup bid ∨ a = MatAction.render bid ∨ a = MatAction.upload bid) →
      isCanonicalBlockId bid = true := by
    intro roi bid a ha hshape
    unfold processRoiRequest at ha
    by_cases hc : isCanonicalBlockId roi.block_id = true
    · rw [if_neg (by simp [hc])] at ha
      rcases hx : env.cropBytes roi.block_id with _ | b <;> rw [hx] at ha <;> dsimp only at ha
      · rcases hshape with h2 | h2 | h2 <;> subst h2 <;> simp_all
      · rcases hshape with h2 | h2 | h2 <;> subst h2 <;> split at ha <;> simp_all
    · rw [if_pos (by simpa using hc)] at ha
      rcases hshape with h2 | h2 | h2 <;> subst h2 <;> simp_all
  have htrace : ∀ (bid : String) (a : MatAction),
      a ∈ build_materials_trace env imgs rois →
      (a = MatAction.cropLookup bid ∨ a = MatAction.render bid ∨ a = MatAction.upload bid) →
      isCanonicalBlockId bid = true := by
    intro bid a ha hshape
    unfold build_materials_trace at ha
    rcases List.mem_append.mp ha with h | h
    · obtain ⟨l, hl, hal⟩ := List.mem_flatten.mp h
      obtain ⟨req, _, rfl⟩ := List.mem_map.mp hl
      exact himg req bid a hal hshape
    · obtain ⟨l, hl, hal⟩ := List.mem_flatten.mp h
      obtain ⟨roi, _, rfl⟩ := List.mem_map.mp hl
      exact hroi roi bid a hal hshape
  refine ⟨?_, ?_, ?_, ?_, ?_⟩
  · intro req _ hbad
    unfold processImageRequest
    rw [if_pos (by simp [hbad])]
  · intro roi _ hbad
    unfold processRoiRequest
    rw [if_pos (by simp [hbad])]
  · intro bid h; exact htrace bid _ h (Or.inl rfl)
  · intro bid h; exact htrace bid _ h (Or.inr (Or.inl rfl))
  · intro bid h; exact htrace bid _ h (Or.inr (Or.inr rfl))

/-- Witness for C4: the hallucinated id `bad-id` is skipped with only the
log action, in both request loops. -/
theorem C4_invalid_ids_skipped_witness :
    isCanonicalBlockId "bad-id" = false ∧
    processImageRequest { cropBytes := fun _ => none }
        { block_id := "bad-id", reason := none, priority := "medium" }
      = [MatAction.logInvalidId "bad-id"] ∧
    processRoiRequest { cropBytes := fun _ => none }
        { block_id := "bad-id", page := some 1, dpi := some 300 }
      = [MatAction.logInvalidId "bad-id"] := by
  refine ⟨by decide, ?_, ?_⟩
  · exact (C4_invalid_ids_skipped { cropBytes := fun _ => none }
      [{ block_id := "bad-id", reason := none, priority := "medium" }] []).1
      _ (List.mem_singleton.mpr rfl) (by decide)
  · exact (C4_invalid_ids_skipped { cropBytes := fun _ => none } []
      [{ block_id := "bad-id", page := some 1, dpi := some 300 }]).2.1
      _ (List.mem_singleton.mpr rfl) (by decide)

/-- Witness for C3 (amended): a 3-byte payload within a 100-byte budget is
stored and the budget invariant holds afterwards. -/
theorem C3_budget_after_put_witness :
    (cachePut { enabled := true, max_size_bytes := 100, ttl := 14 } 5 "s" "v" 0 150
        [1, 2, 3] none { entries := [], files := [] }).1 = true ∧
    totalSize (cachePut { enabled := true, max_size_bytes := 100, ttl := 14 } 5 "s" "v" 0 150
        [1, 2, 3] none { entries := [], files := [] }).2.entries
      ≤ ({ enabled := true, max_size_bytes := 100, ttl := 14 } : CacheCfg).max_size_bytes :=
  C3_budget_after_put { enabled := true, max_size_bytes := 100, ttl := 14 }
    { entries := [], files := [] } "s" "v" 0 150 [1, 2, 3] none 5 rfl rfl (by decide)

/-! ## Supporting lemmas: the answer-markdown extractor -/

theorem eamLoop_eq_decodeEsc (cs : List Char) : eamLoop cs = decodeEsc cs false := by
  induction cs using eamLoop.induct with
  | case1 => rfl
  | case2 => rfl
  | case3 c rest ih => simp [eamLoop, decodeEsc, ih]
  | case4 rest => simp [eamLoop, decodeEsc]
  | case5 c rest h1 h2 h3 ih =>
    have hcb : ¬ c = '\\' := by
      intro hc
      cases rest with
      | nil => exact h1 hc rfl
      | cons a as => exact h2 a as hc rfl
    simp [eamLoop, decodeEsc, ih, h3, hcb]
    rw [if_neg h3]

theorem amSearch_eq_amFirstOccurrence (cs : List Char) :
    amSearch cs = amFirstOccurrence cs := by
  induction cs with
  | nil => rfl
  | cons c rest ih =>
    unfold amFirstOccurrence
    have hlen : (c :: rest).length + 1 = rest.length + 1 + 1 := by simp
    rw [hlen, List.range_succ_eq_map, List.find?_cons]
    cases hm : amMatchAt (c :: rest) with
    | some r =>
      simp only [List.drop_zero, hm, Option.isSome_some]
      simp [amSearch, hm]
    | none =>
      simp only [List.drop_zero, hm, Option.isSome_none]
      simp only [List.find?_map]
      have hq : ((fun n => (amMatchAt ((c :: rest).drop n)).isSome) ∘ Nat.succ)
          = (fun n => (amMatchAt (rest.drop n)).isSome) := funext fun n => rfl
      rw [hq]
      unfold amFirstOccurrence at ih
      rw [show amSearch (c :: rest) = amSearch rest from by simp [amSearch, hm], ih]
      cases hf : (List.range (rest.length + 1)).find?
          (fun n => (amMatchAt (rest.drop n)).isSome) with
      | some n => simp
      | none => simp

/-- C5: `extract_answer_markdown` equals its specification: locate the first
occurrence of `"answer_markdown"` followed by (optionally spaced) colon and
opening quote, then decode with an escape-flag state machine in which an
escaped quote does not terminate the value and decoding stops at the first
unescaped quote or the end of the buffer; when the field is absent the
result is the empty string. -/
theorem C5_extract_answer_markdown_spec (s : String) :
    extract_answer_markdown s = extractSpec s := by
  unfold extract_answer_markdown extractSpec
  rw [amSearch_eq_amFirstOccurrence]
  cases amFirstOccurrence s.toList with
  | none => rfl
  | some rest => simp [eamLoop_eq_decodeEsc]

/-! ## Supporting lemmas: block scoring and selection -/

theorem c7_foldl_mono (selectedIds : List String) (terms : List String)
    (pages : List Nat) (blocks : List ParsedBlock) :
    ∀ (acc : List (ℚ × ParsedBlock)) (p : ℚ × ParsedBlock), p ∈ acc →
      p ∈ blocks.foldl (fun acc b =>
        if b.block_id ∈ selectedIds then acc
        else if 2 ≤ score_block b terms pages then
          acc ++ [(score_block b terms pages, b)] else acc) acc := by
  induction blocks with
  | nil => intro acc p hp; exact hp
  | cons a bs ih =>
    intro acc p hp
    simp only [List.foldl_cons]
    apply ih
    split
    · exact hp
    · split
      · exact List.mem_append_left _ hp
      · exact hp

theorem c7_scored_sound (selectedIds : List String) (terms : List String)
    (pages : List Nat) (blocks : List ParsedBlock) :
    ∀ (acc : List (ℚ × ParsedBlock)) (p : ℚ × ParsedBlock),
      p ∈ blocks.foldl (fun acc b =>
        if b.block_id ∈ selectedIds then acc
        else if 2 ≤ score_block b terms pages then
          acc ++ [(score_block b terms pages, b)] else acc) acc →
      p ∈ acc ∨ (p.2 ∈ blocks ∧ p.2.block_id ∉ selectedIds ∧
        p.1 = score_block p.2 terms pages ∧ 2 ≤ p.1) := by
  induction blocks with
  | nil => intro acc p hp; exact Or.inl hp
  | cons a bs ih =>
    intro acc p hp
    simp only [List.foldl_cons] at hp
    rcases ih _ p hp with h | h
    · split at h
      · exact Or.inl h
      · split at h
        · rcases List.mem_append.mp h with h2 | h2
          · exact Or.inl h2
          · right
            rcases List.mem_singleton.mp h2 with rfl
            refine ⟨List.mem_cons_self a bs, by assumption, rfl, by assumption⟩
        · exact Or.inl h
    · exact Or.inr ⟨List.mem_cons_of_mem a h.1, h.2.1, h.2.2.1, h.2.2.2⟩

theorem c7_scored_complete (selectedIds : List String) (terms : List String)
    (pages : List Nat) (blocks : List ParsedBlock) :
    ∀ (acc : List (ℚ × ParsedBlock)) (b : ParsedBlock), b ∈ blocks →
      b.block_id ∉ selectedIds → 2 ≤ score_block b terms pages →
      (score_block b terms pages, b) ∈ blocks.foldl (fun acc b =>
        if b.block_id ∈ selectedIds then acc
        else if 2 ≤ score_block b terms pages then
          acc ++ [(score_block b terms pages, b)] else acc) acc := by
  induction blocks with
  | nil => intro _ b hb; cases hb
  | cons a bs ih =>
    intro acc b hb hsel hsc
    simp only [List.foldl_cons]
    rcases List.mem_cons.mp hb with rfl | hb2
    · apply c7_foldl_mono
      rw [if_neg hsel, if_pos hsc]
      exact List.mem_append_right _ (List.mem_singleton.mpr rfl)
    · exact ih _ b hb2 hsel hsc

/-- C7 (amended): the coverage score is term hits plus 1.5 for a preferred
page minus 0.5 for short content, and `suggest_additional_blocks` returns
the highest-scoring not-yet-selected blocks with score at least 2.0, at most
the cap, in descending score order — with no restriction to text/table
kinds (the counterexample below shows an IMAGE block being added, refuting
that part of the claim). -/
theorem C7_suggest_selection (blocks : List ParsedBlock) (selectedIds : List String)
    (query : String) (preferredPages : List Nat) (max_add : Nat) :
    (suggest_additional_blocks blocks selectedIds query preferredPages max_add).length
      ≤ max_add ∧
    (∀ b ∈ suggest_additional_blocks blocks selectedIds query preferredPages max_add,
      b ∈ blocks ∧ b.block_id ∉ selectedIds ∧
      2 ≤ score_block b (extract_terms query) preferredPages) ∧
    List.Pairwise (fun a b =>
      score_block b (extract_terms query) preferredPages ≤
      score_block a (extract_terms query) preferredPages)
      (suggest_additional_blocks blocks selectedIds query preferredPages max_add) ∧
    (∀ b ∈ blocks, b.block_id ∉ selectedIds →
      2 ≤ score_block b (extract_terms query) preferredPages →
      b ∉ suggest_additional_blocks blocks selectedIds query preferredPages max_add →
      ∀ a ∈ suggest_additional_blocks blocks selectedIds query preferredPages max_add,
        score_block b (extract_terms query) preferredPages ≤
        score_block a (extract_terms query) preferredPages) := by
  have hdef : suggest_additional_blocks blocks selectedIds query preferredPages max_add
      = (((blocks.foldl (fun acc b =>
            if b.block_id ∈ selectedIds then acc
            else if 2 ≤ score_block b (extract_terms query) preferredPages then
              acc ++ [(score_block b (extract_terms query) preferredPages, b)] else acc)
            []).insertionSort rScore).take max_add).map (fun p => p.2) := rfl
  set terms := extract_terms query with hterms
  set scored := blocks.foldl (fun acc b =>
      if b.block_id ∈ selectedIds then acc
      else if 2 ≤ score_block b terms preferredPages then
        acc ++ [(score_block b terms preferredPages, b)] else acc) [] with hscored
  set sorted := scored.insertionSort rScore with hsortdef
  have hperm : sorted.Perm scored := List.perm_insertionSort rScore scored
  have hsorted : sorted.Pairwise rScore := List.sorted_insertionSort rScore scored
  have hsound : ∀ p ∈ scored, p.2 ∈ blocks ∧ p.2.block_id ∉ selectedIds ∧
      p.1 = score_block p.2 terms preferredPages ∧ 2 ≤ p.1 := by
    intro p hp
    rcases c7_scored_sound selectedIds terms preferredPages blocks [] p hp with h | h
    · cases h
    · exact h
  refine ⟨?_, ?_, ?_, ?_⟩
  · rw [hdef]
    simp only [List.length_map, List.length_take]
    exact min_le_left _ _
  · intro b hb
    rw [hdef] at hb
    obtain ⟨p, hpTake, rfl⟩ := List.mem_map.mp hb
    have hpS : p ∈ sorted := List.mem_of_mem_take hpTake
    have hpScored : p ∈ scored := hperm.mem_iff.mp hpS
    obtain ⟨h1, h2, h3, h4⟩ := hsound p hpScored
    exact ⟨h1, h2, by rw [← h3]; exact h4⟩
  · rw [hdef, List.pairwise_map]
    have htake : (sorted.take max_add).Pairwise rScore :=
      List.Pairwise.sublist (List.take_sublist _ _) hsorted
    refine htake.imp_of_mem ?_
    intro p q hpMem hqMem hR
    have hp2 := hsound p (hperm.mem_iff.mp (List.mem_of_mem_take hpMem))
    have hq2 := hsound q (hperm.mem_iff.mp (List.mem_of_mem_take hqMem))
    rw [← hp2.2.2.1, ← hq2.2.2.1]
    exact hR
  · intro b hbBlocks hbSel hbSc hbOut a haOut
    have hpair : (score_block b terms preferredPages, b) ∈ scored :=
      c7_scored_complete selectedIds terms preferredPages blocks [] b hbBlocks hbSel hbSc
    have hpairS : (score_block b terms preferredPages, b) ∈ sorted :=
      hperm.mem_iff.mpr hpair
    have hnotTake : (score_block b terms preferredPages, b) ∉ sorted.take max_add := by
      intro hc
      exact hbOut (by rw [hdef]; exact List.mem_map.mpr ⟨_, hc, rfl⟩)
    have hdrop : (score_block b terms preferredPages, b) ∈ sorted.drop max_add := by
      have hsplit : (score_block b terms preferredPages, b)
          ∈ sorted.take max_add ++ sorted.drop max_add := by
        rw [List.take_append_drop]; exact hpairS
      rcases List.mem_append.mp hsplit with h | h
      · exact absurd h hnotTake
      · exact h
    rw [hdef] at haOut
    obtain ⟨p, hpTake, rfl⟩ := List.mem_map.mp haOut
    have hcross : ∀ x ∈ sorted.take max_add, ∀ y ∈ sorted.drop max_add, rScore x y := by
      have h2 := hsorted
      rw [← List.take_append_drop max_add sorted, List.pairwise_append] at h2
      exact h2.2.2
    have hle := hcross p hpTake _ hdrop
    have hp2 := hsound p (hperm.mem_iff.mp (List.mem_of_mem_take hpTake))
    rw [← hp2.2.2.1]
    exact hle

/-! ## Supporting lemmas: link closure and the coverage check -/

theorem mem_insertId (acc : List String) (x y : String) :
    x ∈ insertId acc y ↔ x ∈ acc ∨ x = y := by
  unfold insertId
  split
  · next hy =>
    constructor
    · exact fun h => Or.inl h
    · rintro (h | rfl)
      · exact h
      · exact hy
  · simp [List.mem_append]

theorem mem_foldl_insertId (l : List String) :
    ∀ (acc : List String) (x : String),
      x ∈ l.foldl insertId acc ↔ x ∈ acc ∨ x ∈ l := by
  induction l with
  | nil => simp
  | cons a rest ih =>
    intro acc x
    simp only [List.foldl_cons, ih, mem_insertId, List.mem_cons]
    tauto

theorem fwd_fold_mono (blockMap : List (String × ParsedBlock)) (l : List String) :
    ∀ (acc : List String) (x : String), x ∈ acc →
      x ∈ l.foldl (fun acc bid =>
        match mapGet blockMap bid with
        | some b => b.linked_block_ids.foldl insertId acc
        | none => acc) acc := by
  induction l with
  | nil => intro acc x h; exact h
  | cons a rest ih =>
    intro acc x h
    simp only [List.foldl_cons]
    apply ih
    split
    · exact (mem_foldl_insertId _ _ _).mpr (Or.inl h)
    · exact h

theorem fwd_fold_hit (blockMap : List (String × ParsedBlock)) (l : List String) :
    ∀ (acc : List String) (aid bid : String) (A : ParsedBlock), aid ∈ l →
      mapGet blockMap aid = some A → bid ∈ A.linked_block_ids →
      bid ∈ l.foldl (fun acc bid =>
        match mapGet blockMap bid with
        | some b => b.linked_block_ids.foldl insertId acc
        | none => acc) acc := by
  induction l with
  | nil => intro _ _ _ _ h; cases h
  | cons a rest ih =>
    intro acc aid bid A hmem hget hlink
    simp only [List.foldl_cons]
    rcases List.mem_cons.mp hmem with rfl | h2
    · apply fwd_fold_mono
      rw [hget]
      exact (mem_foldl_insertId _ _ _).mpr (Or.inr hlink)
    · exact ih _ aid bid A h2 hget hlink

theorem rev_inner_mono (selectedIds : List String) (bid : String) (lids : List String) :
    ∀ (acc : List String) (x : String), x ∈ acc →
      x ∈ lids.foldl (fun a lid =>
        if lid ∈ selectedIds then insertId a bid else a) acc := by
  induction lids with
  | nil => intro acc x h; exact h
  | cons a rest ih =>
    intro acc x h
    simp only [List.foldl_cons]
    apply ih
    split
    · exact (mem_insertId _ _ _).mpr (Or.inl h)
    · exact h

theorem rev_inner_hit (selectedIds : List String) (bid : String) (lids : List String) :
    ∀ (acc : List String) (b : String), b ∈ lids → b ∈ selectedIds →
      bid ∈ lids.foldl (fun a lid =>
        if lid ∈ selectedIds then insertId a bid else a) acc := by
  induction lids with
  | nil => intro _ _ h; cases h
  | cons a rest ih =>
    intro acc b hmem hsel
    simp only [List.foldl_cons]
    rcases List.mem_cons.mp hmem with rfl | h2
    · apply rev_inner_mono
      rw [if_pos hsel]
      exact (mem_insertId _ _ _).mpr (Or.inr rfl)
    · exact ih _ b h2 hsel

theorem rev_fold_mono (selectedIds : List String) (kvs : List (String × ParsedBlock)) :
    ∀ (acc : List String) (x : String), x ∈ acc →
      x ∈ kvs.foldl (fun acc kv =>
        kv.2.linked_block_ids.foldl (fun a lid =>
          if lid ∈ selectedIds then insertId a kv.2.block_id else a) acc) acc := by
  induction kvs with
  | nil => intro acc x h; exact h
  | cons kv rest ih =>
    intro acc x h
    simp only [List.foldl_cons]
    exact ih _ x (rev_inner_mono selectedIds kv.2.block_id kv.2.linked_block_ids acc x h)

theorem rev_fold_hit (selectedIds : List String) (kvs : List (String × ParsedBlock)) :
    ∀ (acc : List String) (kv : String × ParsedBlock) (b : String), kv ∈ kvs →
      b ∈ kv.2.linked_block_ids → b ∈ selectedIds →
      kv.2.block_id ∈ kvs.foldl (fun acc kv =>
        kv.2.linked_block_ids.foldl (fun a lid =>
          if lid ∈ selectedIds then insertId a kv.2.block_id else a) acc) acc := by
  induction kvs with
  | nil => intro _ _ _ h; cases h
  | cons kv0 rest ih =>
    intro acc kv b hmem hlink hsel
    simp only [List.foldl_cons]
    rcases List.mem_cons.mp hmem with rfl | h2
    · apply rev_fold_mono
      exact rev_inner_hit selectedIds kv.2.block_id kv.2.linked_block_ids acc b hlink hsel
    · exact ih _ kv b h2 hlink hsel

theorem find_linked_fwd (selectedIds : List String)
    (blockMap : List (String × ParsedBlock)) (aid bid : String) (A : ParsedBlock)
    (hsel : aid ∈ selectedIds) (hget : mapGet blockMap aid = some A)
    (hlink : bid ∈ A.linked_block_ids) :
    bid ∈ find_linked_blocks selectedIds blockMap := by
  unfold find_linked_blocks
  apply rev_fold_mono
  exact fwd_fold_hit blockMap selectedIds [] aid bid A hsel hget hlink

theorem find_linked_rev (selectedIds : List String)
    (blockMap : List (String × ParsedBlock)) (kv : String × ParsedBlock) (b : String)
    (hmem : kv ∈ blockMap) (hlink : b ∈ kv.2.linked_block_ids)
    (hsel : b ∈ selectedIds) :
    kv.2.block_id ∈ find_linked_blocks selectedIds blockMap := by
  unfold find_linked_blocks
  exact rev_fold_hit selectedIds blockMap _ kv b hmem hlink hsel

theorem mapGet_elim (m : List (String × ParsedBlock)) (k : String) (b : ParsedBlock)
    (h : mapGet m k = some b) : ∃ kv ∈ m, kv.1 = k ∧ kv.2 = b := by
  unfold mapGet at h
  cases hf : m.find? (fun kv => kv.1 = k) with
  | none => rw [hf] at h; cases h
  | some kv =>
    rw [hf] at h
    cases h
    have h1 := List.mem_of_find?_eq_some hf
    have h2 := List.find?_some hf
    exact ⟨kv, h1, by simpa using h2, rfl⟩

/-- Key membership in the `new_blocks` dict. -/
def keyMem (m : List (String × SelectedBlock)) (k : String) : Prop :=
  ∃ kv ∈ m, kv.1 = k

theorem keyMem_add_mono (blockMap : List (String × ParsedBlock))
    (m : List (String × SelectedBlock)) (bid k : String)
    (h : keyMem m k) : keyMem (add_block_from_map blockMap m bid) k := by
  unfold add_block_from_map
  obtain ⟨kv, hkv, hk⟩ := h
  split
  · exact ⟨kv, hkv, hk⟩
  · split
    · exact ⟨kv, hkv, hk⟩
    · exact ⟨kv, List.mem_append_left _ hkv, hk⟩

theorem keyMem_add_hit (blockMap : List (String × ParsedBlock))
    (m : List (String × SelectedBlock)) (bid : String)
    (h : mapGet blockMap bid ≠ none) :
    keyMem (add_block_from_map blockMap m bid) bid := by
  unfold add_block_from_map
  split
  · next hany =>
    obtain ⟨kv, hkv, hk⟩ := List.any_eq_true.mp hany
    exact ⟨kv, hkv, by simpa using hk⟩
  · cases hget : mapGet blockMap bid with
    | none => exact absurd hget h
    | some blk =>
      exact ⟨(bid, _), List.mem_append_right _ (List.mem_singleton.mpr rfl), rfl⟩

theorem keyMem_foldl_add_mono (blockMap : List (String × ParsedBlock))
    (l : List String) :
    ∀ (m : List (String × SelectedBlock)) (k : String), keyMem m k →
      keyMem (l.foldl (add_block_from_map blockMap) m) k := by
  induction l with
  | nil => intro m k h; exact h
  | cons a rest ih =>
    intro m k h
    exact ih _ k (keyMem_add_mono blockMap m a k h)

theorem keyMem_foldl_add_hit (blockMap : List (String × ParsedBlock))
    (l : List String) :
    ∀ (m : List (String × SelectedBlock)) (bid : String), bid ∈ l →
      mapGet blockMap bid ≠ none →
      keyMem (l.foldl (add_block_from_map blockMap) m) bid := by
  induction l with
  | nil => intro _ _ h; cases h
  | cons a rest ih =>
    intro m bid hmem hget
    simp only [List.foldl_cons]
    rcases List.mem_cons.mp hmem with rfl | h2
    · exact keyMem_foldl_add_mono blockMap rest _ bid (keyMem_add_hit blockMap m bid hget)
    · exact ih _ bid h2 hget

theorem keyMem_foldl_add_by_block_mono (blockMap : List (String × ParsedBlock))
    (l : List ParsedBlock) :
    ∀ (m : List (String × SelectedBlock)) (k : String), keyMem m k →
      keyMem (l.foldl (fun m b => add_block_from_map blockMap m b.block_id) m) k := by
  induction l with
  | nil => intro m k h; exact h
  | cons a rest ih =>
    intro m k h
    exact ih _ k (keyMem_add_mono blockMap m a.block_id k h)

/-- Every binding of the `new_blocks` dict keys the block by its own id. -/
def nbInv (m : List (String × SelectedBlock)) : Prop :=
  ∀ kv ∈ m, kv.1 = kv.2.block_id

theorem nbInv_sbUpsert (m : List (String × SelectedBlock)) (b : SelectedBlock)
    (h : nbInv m) : nbInv (sbUpsert m b) := by
  unfold sbUpsert
  split
  · intro kv hkv
    obtain ⟨kv0, hkv0, hmapped⟩ := List.mem_map.mp hkv
    by_cases hk : kv0.1 = b.block_id
    · rw [if_pos hk] at hmapped
      rw [← hmapped]
      simpa using hk
    · rw [if_neg hk] at hmapped
      rw [← hmapped]
      exact h kv0 hkv0
  · intro kv hkv
    rcases List.mem_append.mp hkv with h2 | h2
    · exact h kv h2
    · rcases List.mem_singleton.mp h2 with rfl
      rfl

theorem nbInv_foldl_sbUpsert (bs : List SelectedBlock) :
    ∀ (m : List (String × SelectedBlock)), nbInv m → nbInv (bs.foldl sbUpsert m) := by
  induction bs with
  | nil => intro m h; exact h
  | cons b rest ih =>
    intro m h
    exact ih _ (nbInv_sbUpsert m b h)

theorem nbInv_add (blockMap : List (String × ParsedBlock))
    (hWF : ∀ kv ∈ blockMap, kv.1 = kv.2.block_id)
    (m : List (String × SelectedBlock)) (bid : String)
    (h : nbInv m) : nbInv (add_block_from_map blockMap m bid) := by
  unfold add_block_from_map
  split
  · exact h
  · cases hget : mapGet blockMap bid with
    | none => exact h
    | some blk =>
      intro kv hkv
      rcases List.mem_append.mp hkv with h2 | h2
      · exact h kv h2
      · rcases List.mem_singleton.mp h2 with rfl
        obtain ⟨kv0, hkv0, hk0, hv0⟩ := mapGet_elim blockMap bid blk hget
        have := hWF kv0 hkv0
        simp only []
        rw [← hv0, ← this, hk0]

theorem nbInv_foldl_add (blockMap : List (String × ParsedBlock))
    (hWF : ∀ kv ∈ blockMap, kv.1 = kv.2.block_id) (l : List String) :
    ∀ (m : List (String × SelectedBlock)), nbInv m →
      nbInv (l.foldl (add_block_from_map blockMap) m) := by
  induction l with
  | nil => intro m h; exact h
  | cons a rest ih =>
    intro m h
    exact ih _ (nbInv_add blockMap hWF m a h)

theorem nbInv_foldl_add_by_block (blockMap : List (String × ParsedBlock))
    (hWF : ∀ kv ∈ blockMap, kv.1 = kv.2.block_id) (l : List ParsedBlock) :
    ∀ (m : List (String × SelectedBlock)), nbInv m →
      nbInv (l.foldl (fun m b => add_block_from_map blockMap m b.block_id) m) := by
  induction l with
  | nil => intro m h; exact h
  | cons a rest ih =>
    intro m h
    exact ih _ (nbInv_add blockMap hWF m a.block_id h)

theorem keyMem_to_block_ids (m : List (String × SelectedBlock)) (k : String)
    (hinv : nbInv m) (h : keyMem m k) :
    k ∈ m.map (fun kv => kv.2.block_id) := by
  obtain ⟨kv, hkv, hk⟩ := h
  exact List.mem_map.mpr ⟨kv, hkv, by rw [← (hinv kv hkv), hk]⟩

theorem mem_foldl_insertId_ids (bs : List SelectedBlock) :
    ∀ (acc : List String) (x : String),
      x ∈ bs.foldl (fun acc b => insertId acc b.block_id) acc ↔
        x ∈ acc ∨ x ∈ bs.map (fun b => b.block_id) := by
  induction bs with
  | nil => simp
  | cons b rest ih =>
    intro acc x
    simp only [List.foldl_cons, ih, mem_insertId, List.map_cons, List.mem_cons]
    tauto

/-- C6 (amended): `_apply_coverage_check` closes the selected set under link
references in both directions *relative to the initially selected set* (one
step, not a fixpoint): for blocks A and B of the map with A linking to B, if
A is initially selected then B is in the augmented set, and if B is
initially selected then A is in the augmented set.  Chains of links are not
followed — see the counterexample, which refutes the claim's
fixpoint/chain reading. -/
theorem C6_link_closure_one_step (resp : FlashResp)
    (blockMap : List (String × ParsedBlock)) (query : String) (max_add : Nat)
    (A B : ParsedBlock)
    (hWF : ∀ kv ∈ blockMap, kv.1 = kv.2.block_id)
    (hA : mapGet blockMap A.block_id = some A)
    (hB : mapGet blockMap B.block_id = some B)
    (hlink : B.block_id ∈ A.linked_block_ids) :
    (A.block_id ∈ resp.selected_blocks.map (fun b => b.block_id) →
      B.block_id ∈ (apply_coverage_check resp blockMap query max_add).selected_blocks.map
        (fun b => b.block_id)) ∧
    (B.block_id ∈ resp.selected_blocks.map (fun b => b.block_id) →
      A.block_id ∈ (apply_coverage_check resp blockMap query max_add).selected_blocks.map
        (fun b => b.block_id)) := by
  set selIds := resp.selected_blocks.foldl (fun acc b => insertId acc b.block_id) []
    with hselIds
  set linked := find_linked_blocks selIds blockMap with hlinkedIds
  set pages := (resp.selected_blocks.filter (fun b => b.page_number ≠ 0)).map
    (fun b => b.page_number) with hpages
  set extra := suggest_additional_blocks (blockMap.map (fun kv => kv.2))
    (selIds ++ linked) query pages max_add with hextra
  set nb0 := resp.selected_blocks.foldl sbUpsert
    ([] : List (String × SelectedBlock)) with hnb0
  set nb1 := linked.foldl (add_block_from_map blockMap) nb0 with hnb1
  set nb2 := extra.foldl (fun m b => add_block_from_map blockMap m b.block_id) nb1
    with hnb2
  have hout : (apply_coverage_check resp blockMap query max_add).selected_blocks
      = nb2.map (fun kv => kv.2) := rfl
  have hinv2 : nbInv nb2 := by
    rw [hnb2]
    apply nbInv_foldl_add_by_block blockMap hWF
    rw [hnb1]
    apply nbInv_foldl_add blockMap hWF
    rw [hnb0]
    apply nbInv_foldl_sbUpsert
    intro kv hkv
    cases hkv
  have hchain : ∀ k : String, k ∈ linked → mapGet blockMap k ≠ none →
      k ∈ (apply_coverage_check resp blockMap query max_add).selected_blocks.map
        (fun b => b.block_id) := by
    intro k hk hget
    have h1 : keyMem nb1 k := by
      rw [hnb1]
      exact keyMem_foldl_add_hit blockMap linked nb0 k hk hget
    have h2 : keyMem nb2 k := by
      rw [hnb2]
      exact keyMem_foldl_add_by_block_mono blockMap extra nb1 k h1
    have h3 := keyMem_to_block_ids nb2 k hinv2 h2
    rw [hout, List.map_map]
    exact h3
  have hselEquiv : ∀ x : String,
      x ∈ resp.selected_blocks.map (fun b => b.block_id) ↔ x ∈ selIds := by
    intro x
    rw [hselIds, mem_foldl_insertId_ids]
    simp
  constructor
  · intro hAsel
    have hsel2 : A.block_id ∈ selIds := (hselEquiv _).mp hAsel
    have hBlinked : B.block_id ∈ linked := by
      rw [hlinkedIds]
      exact find_linked_fwd selIds blockMap A.block_id B.block_id A hsel2 hA hlink
    exact hchain B.block_id hBlinked (by rw [hB]; simp)
  · intro hBsel
    have hsel2 : B.block_id ∈ selIds := (hselEquiv _).mp hBsel
    obtain ⟨kv, hkv, hk1, hk2⟩ := mapGet_elim blockMap A.block_id A hA
    have hAlinked : A.block_id ∈ linked := by
      rw [hlinkedIds]
      have h4 := find_linked_rev selIds blockMap kv B.block_id hkv
        (by rw [hk2]; exact hlink) hsel2
      rw [hk2] at h4
      exact h4
    exact hchain A.block_id hAlinked (by rw [hA]; simp)

/-- C6 (counterexample to the claim as stated): with the chain
A → B → C and only A initially selected (empty query, so no score-based
additions), the augmented set contains B but not C, although B is in the
augmented set and B links to C — the closure is a single step, not a
fixpoint over chains. -/
theorem C6_counterexample :
    ("AAAA-AAAA-002" ∈ (apply_coverage_check c6resp c6map "" 10).selected_blocks.map
      (fun b => b.block_id)) ∧
    "AAAA-AAAA-003" ∈ c6B.linked_block_ids ∧
    mapGet c6map "AAAA-AAAA-003" = some c6C ∧
    ¬ ("AAAA-AAAA-003" ∈ (apply_coverage_check c6resp c6map "" 10).selected_blocks.map
      (fun b => b.block_id)) := by
  with_unfolding_all decide

/-- Witness for C6 (amended): in the chain scenario, the one-step closure
does add B, the direct link target of the initially selected A. -/
theorem C6_link_closure_one_step_witness :
    "AAAA-AAAA-002" ∈ (apply_coverage_check c6resp c6map "" 10).selected_blocks.map
      (fun b => b.block_id) := by
  have h := (C6_link_closure_one_step c6resp c6map "" 10 c6A c6B
    (by decide) (by decide) (by decide) (by decide)).1 (by decide)
  exact h

/-- C7 (counterexample to the claim as stated): `suggest_additional_blocks`
does not restrict candidates to text/table blocks — an IMAGE block whose
content matches the query terms is scored and added by the coverage check. -/
theorem C7_counterexample :
    (apply_coverage_check { selected_blocks := [], requested_images := [] }
      [("AAAA-AAAA-004", c7img)] "alpha beta" 10).selected_blocks.map
      (fun b => (b.block_id, b.block_kind)) = [("AAAA-AAAA-004", "IMAGE")] ∧
    c7img.block_kind ≠ "TEXT" ∧ c7img.block_kind ≠ "TABLE" ∧
    suggest_additional_blocks [c7img] [] "alpha beta" [] 10 = [c7img] := by
  with_unfolding_all decide

/-- Witness for C7 (amended): the IMAGE block selected by
`suggest_additional_blocks` satisfies the selection properties (not yet
selected, score at least 2). -/
theorem C7_suggest_selection_witness :
    c7img ∈ [c7img] ∧ c7img.block_id ∉ ([] : List String) ∧
    2 ≤ score_block c7img (extract_terms "alpha beta") [] := by
  have h := (C7_suggest_selection [c7img] [] "alpha beta" [] 10).2.1 c7img
    (by with_unfolding_all decide)
  exact ⟨h.1, h.2.1, h.2.2⟩

/-! ## Supporting lemmas: arrow-link extraction and the parser -/

theorem takeWhile_append_drop_self (p : Char → Bool) (l : List Char) :
    l.takeWhile p ++ l.drop (l.takeWhile p).length = l := by
  conv_rhs => rw [← List.take_append_drop (l.takeWhile p).length l]
  congr 1
  exact List.prefix_iff_eq_take.mp (List.takeWhile_prefix (l := l) p)

theorem drop_takeWhile_eq_dropWhile (p : Char → Bool) (l : List Char) :
    l.drop (l.takeWhile p).length = l.dropWhile p :=
  List.append_cancel_left
    ((takeWhile_append_drop_self p l).trans (List.takeWhile_append_dropWhile p l).symm)

theorem head_drop_takeWhile_false (p : Char → Bool) (l : List Char) (c : Char)
    (h : c ∈ (l.drop (l.takeWhile p).length).take 1) : p c = false := by
  rw [drop_takeWhile_eq_dropWhile] at h
  have h2 := List.head?_dropWhile_not p l
  cases hl : l.dropWhile p with
  | nil => rw [hl] at h; cases h
  | cons d ds =>
    rw [hl] at h
    simp only [List.take_succ_cons, List.take_zero, List.mem_singleton] at h
    subst h
    rw [hl] at h2
    simpa using h2

theorem arrowLinksF_sound : ∀ (fuel : Nat) (cs : List Char) (t : String),
    t ∈ arrowLinksF fuel cs →
    t.toList ≠ [] ∧ t.toList.all isLinkChar = true ∧
    ∃ pre post, cs = pre ++ '→' :: (t.toList ++ post) ∧
      ∀ c ∈ post.take 1, isLinkChar c = false := by
  intro fuel
  induction fuel with
  | zero => intro cs t ht; simp [arrowLinksF] at ht
  | succ n ih =>
    intro cs t ht
    cases cs with
    | nil => simp [arrowLinksF] at ht
    | cons c rest =>
      simp only [arrowLinksF] at ht
      by_cases hc : c = '→'
      · rw [if_pos hc] at ht
        by_cases hrun : (rest.takeWhile isLinkChar).isEmpty = true
        · rw [if_pos hrun] at ht
          obtain ⟨hne, hall, pre, post, hdec, hmax⟩ := ih rest t ht
          exact ⟨hne, hall, c :: pre, post, by rw [hdec]; simp, hmax⟩
        · rw [if_neg hrun] at ht
          rcases List.mem_cons.mp ht with rfl | ht2
          · have htl : ((rest.takeWhile isLinkChar).asString).toList
                = rest.takeWhile isLinkChar := rfl
            refine ⟨?_, ?_, [], rest.drop (rest.takeWhile isLinkChar).length, ?_, ?_⟩
            · rw [htl]
              intro hempty
              rw [hempty] at hrun
              exact hrun rfl
            · rw [htl]
              exact List.all_eq_true.mpr (fun x hx => List.mem_takeWhile_imp hx)
            · rw [htl, List.nil_append, hc, List.cons_inj_right]
              exact (takeWhile_append_drop_self isLinkChar rest).symm
            · intro c2 hc2
              exact head_drop_takeWhile_false isLinkChar rest c2 hc2
          · obtain ⟨hne, hall, pre, post, hdec, hmax⟩ := ih _ t ht2
            refine ⟨hne, hall, c :: (rest.takeWhile isLinkChar ++ pre), post, ?_, hmax⟩
            have hsplit := takeWhile_append_drop_self isLinkChar rest
            calc c :: rest
                = c :: (rest.takeWhile isLinkChar
                    ++ rest.drop (rest.takeWhile isLinkChar).length) := by rw [hsplit]
              _ = c :: (rest.takeWhile isLinkChar ++ (pre ++ '→' :: (t.toList ++ post))) := by
                  rw [← hdec]
              _ = (c :: (rest.takeWhile isLinkChar ++ pre)) ++ '→' :: (t.toList ++ post) := by
                  simp [List.append_assoc]
      · rw [if_neg hc] at ht
        obtain ⟨hne, hall, pre, post, hdec, hmax⟩ := ih rest t ht
        exact ⟨hne, hall, c :: pre, post, by rw [hdec]; simp, hmax⟩

theorem parseLoopF_linked : ∀ (fuel : Nat) (lines : List String) (page : Option Nat)
    (b : ParsedBlock), b ∈ parseLoopF fuel lines page →
    b.linked_block_ids = arrowLinks b.content_raw.toList := by
  intro fuel
  induction fuel with
  | zero => intro lines page b hb; simp [parseLoopF] at hb
  | succ n ih =>
    intro lines page b hb
    cases lines with
    | nil => simp [parseLoopF] at hb
    | cons line rest =>
      simp only [parseLoopF] at hb
      split at hb
      · exact ih _ _ b hb
      · split at hb
        · rcases List.mem_cons.mp hb with rfl | hb2
          · rfl
          · exact ih _ _ b hb2
        · exact ih _ _ b hb

/-- C8 (amended): each parsed block's `linked_block_ids` is exactly the list
produced by scanning its content for the arrow-prefixed pattern
`→[A-Z0-9-]+`: every entry is a non-empty run of characters from `[A-Z0-9-]`
that occurs in the content immediately after an arrow and is maximal (the
character following it, if any, is outside the class).  Tokens are *not*
filtered by the canonical 12-character form — the counterexample extracts
`ABC` — so "no token of any other shape" holds only for the shape
`[A-Z0-9-]+`, not for `XXXX-XXXX-XXX`. -/
theorem C8_linked_ids (text : String) (b : ParsedBlock)
    (hb : b ∈ parse_md_blocks text) :
    b.linked_block_ids = arrowLinks b.content_raw.toList ∧
    ∀ t ∈ b.linked_block_ids, t.toList ≠ [] ∧ t.toList.all isLinkChar = true ∧
      ∃ pre post, b.content_raw.toList = pre ++ '→' :: (t.toList ++ post) ∧
        ∀ c ∈ post.take 1, isLinkChar c = false := by
  have h1 : b.linked_block_ids = arrowLinks b.content_raw.toList := by
    unfold parse_md_blocks at hb
    split at hb
    · cases hb
    · exact parseLoopF_linked _ _ _ b hb
  refine ⟨h1, ?_⟩
  intro t ht
  rw [h1] at ht
  exact arrowLinksF_sound _ _ t ht

/-- Witness for C8 (amended) on a concrete stream whose single block links
to `AAAA-BBBB-002`. -/
theorem C8_linked_ids_witness :
    c8goodBlock.linked_block_ids = arrowLinks c8goodBlock.content_raw.toList ∧
    ∀ t ∈ c8goodBlock.linked_block_ids, t.toList ≠ [] ∧
      t.toList.all isLinkChar = true ∧
      ∃ pre post, c8goodBlock.content_raw.toList = pre ++ '→' :: (t.toList ++ post) ∧
        ∀ c ∈ post.take 1, isLinkChar c = false :=
  C8_linked_ids c8goodText c8goodBlock (by decide)

/-- C8 (counterexample to the claim as stated): the parser extracts the
arrow-prefixed token `ABC` as a linked block id although it does not match
the canonical 12-character form `XXXX-XXXX-XXX`. -/
theorem C8_counterexample :
    (parse_md_blocks c8text).map (fun b => b.linked_block_ids) = [["ABC"]] ∧
    canonicalCore "ABC".toList = false ∧ isCanonicalBlockId "ABC" = false := by
  decide

/-! ## Supporting lemmas: the put/get round trip -/

theorem elookup_filter_none (es : List CEntry) (p : CEntry → Bool) (k : String)
    (h : elookup es k = none) : elookup (es.filter p) k = none := by
  unfold elookup at *
  rw [List.find?_eq_none] at *
  intro x hx
  exact h x (List.mem_of_mem_filter hx)

theorem elookup_filter_killed (es : List CEntry) (k : String) :
    elookup (es.filter (fun x => ¬ x.cache_key = k)) k = none := by
  unfold elookup
  rw [List.find?_eq_none]
  intro x hx hk
  have := List.of_mem_filter hx
  simp only [decide_not, Bool.not_eq_true', decide_eq_false_iff_not] at this
  exact this (by simpa using hk)

theorem elookup_filter_other (es : List CEntry) (k1 k2 : String) (h : k1 ≠ k2) :
    elookup (es.filter (fun x => ¬ x.cache_key = k1)) k2 = elookup es k2 := by
  unfold elookup
  induction es with
  | nil => rfl
  | cons a rest ih =>
    by_cases hk : a.cache_key = k1
    · rw [List.filter_cons, if_neg (by simp [hk])]
      rw [List.find?_cons, ih]
      have : (decide (a.cache_key = k2)) = false := by
        simp [hk]
        exact fun hc => absurd (hk ▸ hc : k1 = k2).symm (Ne.symm h)
      rw [this]
    · rw [List.filter_cons, if_pos (by simp [hk])]
      rw [List.find?_cons, List.find?_cons]
      cases hd : decide (a.cache_key = k2) with
      | true => rfl
      | false => exact ih

theorem find?_fdelete_other (fs : List (String × Bytes)) (p1 p2 : String)
    (h : p1 ≠ p2) :
    (fdelete fs p1).find? (fun kv => kv.1 = p2) = fs.find? (fun kv => kv.1 = p2) := by
  unfold fdelete
  induction fs with
  | nil => rfl
  | cons a rest ih =>
    rw [List.filter_cons]
    by_cases hk : a.1 = p1
    · rw [if_neg (by simp [hk])]
      rw [List.find?_cons]
      have hd : (decide (a.1 = p2)) = false := by
        simp only [decide_eq_false_iff_not]
        intro hc
        exact h (hk ▸ hc)
      rw [hd]
      exact ih
    · rw [if_pos (by simp [hk])]
      rw [List.find?_cons, List.find?_cons]
      cases hd : decide (a.1 = p2) with
      | true => rfl
      | false => exact ih

theorem flookup_fdelete_other (fs : List (String × Bytes)) (p1 p2 : String)
    (h : p1 ≠ p2) : flookup (fdelete fs p1) p2 = flookup fs p2 := by
  unfold flookup
  rw [find?_fdelete_other fs p1 p2 h]

theorem find?_fwrite_map_aux (p : String) (b : Bytes) :
    ∀ (fs : List (String × Bytes)), fs.any (fun kv => kv.1 = p) = true →
    (fs.map (fun kv => if kv.1 = p then (p, b) else kv)).find? (fun kv => kv.1 = p)
      = some (p, b) := by
  intro fs
  induction fs with
  | nil => intro h; cases h
  | cons a rest ih =>
    intro hany
    simp only [List.map_cons, List.find?_cons]
    by_cases hk : a.1 = p
    · rw [if_pos hk]
      have : (decide ((p, b).1 = p)) = true := by simp
      rw [this]
    · rw [if_neg hk]
      have hd : (decide (a.1 = p)) = false := by simpa using hk
      rw [hd]
      apply ih
      simp only [List.any_cons, Bool.or_eq_true] at hany
      rcases hany with h1 | h1
      · exact absurd (by simpa using h1) hk
      · exact h1

theorem find?_fwrite_self (fs : List (String × Bytes)) (p : String) (b : Bytes) :
    (fwrite fs p b).find? (fun kv => kv.1 = p) = some (p, b) := by
  unfold fwrite
  by_cases hany : fs.any (fun kv => kv.1 = p) = true
  · rw [if_pos hany]
    exact find?_fwrite_map_aux p b fs hany
  · rw [if_neg hany]
    rw [List.find?_append]
    have hn : fs.find? (fun kv => kv.1 = p) = none := by
      rw [List.find?_eq_none]
      intro x hx hc
      exact hany (List.any_eq_true.mpr ⟨x, hx, hc⟩)
    rw [hn]
    simp

theorem flookup_fwrite_self (fs : List (String × Bytes)) (p : String) (b : Bytes) :
    flookup (fwrite fs p b) p = some b := by
  unfold flookup
  rw [find?_fwrite_self fs p b]

theorem find?_fwrite_other (fs : List (String × Bytes)) (p1 p2 : String)
    (b : Bytes) (h : p1 ≠ p2) :
    (fwrite fs p1 b).find? (fun kv => kv.1 = p2) = fs.find? (fun kv => kv.1 = p2) := by
  unfold fwrite
  by_cases hany : fs.any (fun kv => kv.1 = p1) = true
  · rw [if_pos hany]
    clear hany
    induction fs with
    | nil => rfl
    | cons a rest ih =>
      simp only [List.map_cons, List.find?_cons]
      by_cases hk : a.1 = p1
      · rw [if_pos hk]
        have h1 : (decide ((p1, b).1 = p2)) = false := by simpa using h
        have h2 : (decide (a.1 = p2)) = false := by
          simp only [decide_eq_false_iff_not]
          intro hc
          exact h (hk ▸ hc)
        rw [h1, h2]
        exact ih
      · rw [if_neg hk]
        cases hd : decide (a.1 = p2) with
        | true => rfl
        | false => exact ih
  · rw [if_neg hany]
    rw [List.find?_append]
    have h1 : ([(p1, b)].find? (fun kv => kv.1 = p2)) = none := by
      rw [List.find?_eq_none]
      intro x hx hc
      rcases List.mem_singleton.mp hx with rfl
      exact h (by simpa using hc)
    rw [h1]
    cases hf : fs.find? (fun kv => kv.1 = p2) <;> rfl

theorem flookup_fwrite_other (fs : List (String × Bytes)) (p1 p2 : String)
    (b : Bytes) (h : p1 ≠ p2) : flookup (fwrite fs p1 b) p2 = flookup fs p2 := by
  unfold flookup
  rw [find?_fwrite_other fs p1 p2 b h]

theorem find?_map_key_preserving (g : CEntry → CEntry) (key2 key : String)
    (hkeys : ∀ e, (g e).cache_key = e.cache_key)
    (hid : ∀ e, ¬ e.cache_key = key2 → g e = e) (h : key2 ≠ key) :
    ∀ es : List CEntry,
      (es.map g).find? (fun e => e.cache_key = key)
        = es.find? (fun e => e.cache_key = key) := by
  intro es
  induction es with
  | nil => rfl
  | cons a rest ih =>
    simp only [List.map_cons, List.find?_cons, hkeys a]
    cases hd : decide (a.cache_key = key) with
    | true =>
      have hk2 : ¬ a.cache_key = key2 := by
        intro hc
        exact h (hc ▸ (by simpa using hd : a.cache_key = key))
      rw [hid a hk2]
    | false => exact ih

theorem find?_map_key_hit (g : CEntry → CEntry) (key : String) (R : CEntry)
    (hkeys : ∀ e, (g e).cache_key = e.cache_key)
    (hR : ∀ e, e.cache_key = key → g e = R) :
    ∀ es : List CEntry, es.any (fun e => e.cache_key = key) = true →
      (es.map g).find? (fun e => e.cache_key = key) = some R := by
  intro es
  induction es with
  | nil => intro hc; cases hc
  | cons a rest ih =>
    intro hany
    simp only [List.map_cons, List.find?_cons, hkeys a]
    cases hd : decide (a.cache_key = key) with
    | true => rw [hR a (by simpa using hd)]
    | false =>
      apply ih
      simp only [List.any_cons, Bool.or_eq_true] at hany
      rcases hany with h1 | h1
      · rw [h1] at hd; cases hd
      · exact h1

theorem elookup_upsert_other (es : List CEntry) (key2 key ver path : String)
    (size now : Nat) (h : key2 ≠ key) :
    elookup (upsertEntry es key2 ver path size now) key = elookup es key := by
  unfold upsertEntry elookup
  by_cases hany : es.any (fun e => e.cache_key = key2) = true
  · rw [if_pos hany]
    apply find?_map_key_preserving _ key2 key _ _ h
    · intro e
      by_cases hk : e.cache_key = key2 <;> simp [hk]
    · intro e he
      rw [if_neg he]
  · rw [if_neg hany]
    rw [List.find?_append]
    have h1 : (([⟨key2, ver, path, size, now, now⟩] : List CEntry).find?
          (fun e => e.cache_key = key)) = none := by
      rw [List.find?_eq_none]
      intro x hx hc
      rcases List.mem_singleton.mp hx with rfl
      exact h (by simpa using hc)
    rw [h1]
    cases hf : es.find? (fun e => e.cache_key = key) <;> rfl

theorem elookup_upsert_self (es : List CEntry) (key ver path : String)
    (size now : Nat) :
    elookup (upsertEntry es key ver path size now) key
      = some { cache_key := key, source_version := ver, file_path := path,
               size_bytes := size, created_at := now, last_access_at := now } := by
  unfold upsertEntry elookup
  by_cases hany : es.any (fun e => e.cache_key = key) = true
  · rw [if_pos hany]
    apply find?_map_key_hit _ key _ _ _ es hany
    · intro e
      by_cases hk : e.cache_key = key <;> simp [hk]
    · intro e he
      rw [if_pos he]
      cases e
      simp_all
  · rw [if_neg hany]
    rw [List.find?_append]
    have hn : es.find? (fun e => e.cache_key = key) = none := by
      rw [List.find?_eq_none]
      intro x hx hc
      exact hany (List.any_eq_true.mpr ⟨x, hx, hc⟩)
    rw [hn]
    simp

theorem keysNodup_upsert (es : List CEntry) (key ver path : String)
    (size now : Nat) (h : keysNodup es = true) :
    keysNodup (upsertEntry es key ver path size now) = true := by
  unfold upsertEntry
  by_cases hany : es.any (fun e => e.cache_key = key) = true
  · rw [if_pos hany]
    rw [keysNodup_iff] at h ⊢
    have hmapkeys : (es.map (fun e => if e.cache_key = key then
        { e with source_version := ver, file_path := path, size_bytes := size,
                 created_at := now, last_access_at := now } else e)).map
          (fun e => e.cache_key) = es.map (fun e => e.cache_key) := by
      rw [List.map_map]
      apply List.map_congr_left
      intro e _
      by_cases hk : e.cache_key = key
      · simp [hk]
      · simp [hk]
    rw [hmapkeys]
    exact h
  · rw [if_neg hany]
    rw [keysNodup_iff] at h ⊢
    rw [List.map_append]
    rw [List.nodup_append]
    refine ⟨h, List.nodup_singleton _, ?_⟩
    intro x hx
    obtain ⟨e, he, rfl⟩ := List.mem_map.mp hx
    simp only [List.map_cons, List.map_nil, List.mem_singleton]
    intro hc
    exact hany (List.any_eq_true.mpr ⟨e, he, by simpa using hc⟩)

theorem allpath_upsert (es : List CEntry) (key ver : String) (size now : Nat)
    (h : es.all (fun e => e.file_path = e.cache_key) = true) :
    (upsertEntry es key ver key size now).all
      (fun e => e.file_path = e.cache_key) = true := by
  unfold upsertEntry
  rw [List.all_eq_true] at h ⊢
  intro e he
  by_cases hany : es.any (fun e => e.cache_key = key) = true
  · rw [if_pos hany] at he
    obtain ⟨x, hx, rfl⟩ := List.mem_map.mp he
    by_cases hk : x.cache_key = key
    · simp [hk]
    · simp only [if_neg hk]
      exact h x hx
  · rw [if_neg hany] at he
    rcases List.mem_append.mp he with h2 | h2
    · exact h e h2
    · rcases List.mem_singleton.mp h2 with rfl
      simp

theorem cacheWF_entries_path (st : CacheState) (e : CEntry)
    (hWF : cacheWF st = true) (he : e ∈ st.entries) :
    e.file_path = e.cache_key := by
  unfold cacheWF at hWF
  rw [Bool.and_eq_true] at hWF
  have h2 := List.all_eq_true.mp hWF.2 e he
  simpa using h2

theorem cacheWF_removeEntry (st : CacheState) (e : CEntry)
    (hWF : cacheWF st = true) : cacheWF (removeEntry st e) = true := by
  unfold cacheWF at *
  rw [Bool.and_eq_true] at *
  refine ⟨keysNodup_filter _ _ hWF.1, ?_⟩
  rw [List.all_eq_true] at *
  intro x hx
  exact hWF.2 x (List.mem_of_mem_filter hx)

theorem removeEntry_round (st : CacheState) (e : CEntry) (key : String)
    (tPut : Nat) (v : Bytes) (hpath : e.file_path = e.cache_key)
    (h : (∃ r, elookup st.entries key = some r ∧ r.created_at = tPut ∧
          r.file_path = key ∧ flookup st.files key = some v) ∨
        elookup st.entries key = none) :
    (∃ r, elookup (removeEntry st e).entries key = some r ∧ r.created_at = tPut ∧
        r.file_path = key ∧ flookup (removeEntry st e).files key = some v) ∨
      elookup (removeEntry st e).entries key = none := by
  rcases h with ⟨r, hr, hrc, hrp, hrf⟩ | hnone
  · by_cases hk : e.cache_key = key
    · right
      show elookup (st.entries.filter (fun x => ¬ x.cache_key = e.cache_key)) key = none
      rw [hk]
      exact elookup_filter_killed st.entries key
    · left
      refine ⟨r, ?_, hrc, hrp, ?_⟩
      · show elookup (st.entries.filter (fun x => ¬ x.cache_key = e.cache_key)) key = some r
        rw [elookup_filter_other st.entries e.cache_key key hk]
        exact hr
      · show flookup (fdelete st.files e.file_path) key = some v
        rw [flookup_fdelete_other st.files e.file_path key (by rw [hpath]; exact hk)]
        exact hrf
  · right
    exact elookup_filter_none st.entries _ key hnone

theorem foldl_remove_round (l : List CEntry) (key : String) (tPut : Nat) (v : Bytes) :
    ∀ st : CacheState, (∀ e ∈ l, e.file_path = e.cache_key) →
      ((∃ r, elookup st.entries key = some r ∧ r.created_at = tPut ∧
          r.file_path = key ∧ flookup st.files key = some v) ∨
        elookup st.entries key = none) →
      ((∃ r, elookup (l.foldl removeEntry st).entries key = some r ∧
          r.created_at = tPut ∧ r.file_path = key ∧
          flookup (l.foldl removeEntry st).files key = some v) ∨
        elookup (l.foldl removeEntry st).entries key = none) := by
  induction l with
  | nil => intro st _ h; exact h
  | cons e rest ih =>
    intro st hp h
    simp only [List.foldl_cons]
    exact ih _ (fun x hx => hp x (List.mem_cons_of_mem e hx))
      (removeEntry_round st e key tPut v (hp e (List.mem_cons_self e rest)) h)

theorem cacheWF_foldl_remove (l : List CEntry) :
    ∀ st : CacheState, cacheWF st = true →
      cacheWF (l.foldl removeEntry st) = true := by
  induction l with
  | nil => intro st h; exact h
  | cons e rest ih =>
    intro st h
    exact ih _ (cacheWF_removeEntry st e h)

theorem cacheWF_ttlSweep2 (cfg : CacheCfg) (now : Nat) (st : CacheState)
    (h : cacheWF st = true) : cacheWF (ttlSweep cfg now st) = true :=
  cacheWF_foldl_remove _ st h

theorem ttlSweep_round (cfg : CacheCfg) (now : Nat) (st : CacheState)
    (key : String) (tPut : Nat) (v : Bytes) (hWF : cacheWF st = true)
    (h : (∃ r, elookup st.entries key = some r ∧ r.created_at = tPut ∧
          r.file_path = key ∧ flookup st.files key = some v) ∨
        elookup st.entries key = none) :
    (∃ r, elookup (ttlSweep cfg now st).entries key = some r ∧ r.created_at = tPut ∧
        r.file_path = key ∧ flookup (ttlSweep cfg now st).files key = some v) ∨
      elookup (ttlSweep cfg now st).entries key = none := by
  unfold ttlSweep
  apply foldl_remove_round _ key tPut v st _ h
  intro e he
  exact cacheWF_entries_path st e hWF (List.mem_of_mem_filter he)

theorem evictLoop_round (cfg : CacheCfg) (needed : Nat) (key : String)
    (tPut : Nat) (v : Bytes) :
    ∀ (fuel : Nat) (st : CacheState) (total : Nat), cacheWF st = true →
      ((∃ r, elookup st.entries key = some r ∧ r.created_at = tPut ∧
          r.file_path = key ∧ flookup st.files key = some v) ∨
        elookup st.entries key = none) →
      cacheWF (evictLoop cfg needed fuel st total) = true ∧
      ((∃ r, elookup (evictLoop cfg needed fuel st total).entries key = some r ∧
          r.created_at = tPut ∧ r.file_path = key ∧
          flookup (evictLoop cfg needed fuel st total).files key = some v) ∨
        elookup (evictLoop cfg needed fuel st total).entries key = none) := by
  intro fuel
  induction fuel with
  | zero => intro st total hWF h; exact ⟨hWF, h⟩
  | succ n ih =>
    intro st total hWF h
    simp only [evictLoop]
    split
    · exact ⟨hWF, h⟩
    · split
      · exact ⟨hWF, h⟩
      · next e hmin =>
        have hmem := minLastAccess_mem st.entries e hmin
        have hpath := cacheWF_entries_path st e hWF hmem
        exact ih _ _ (cacheWF_removeEntry st e hWF)
          (removeEntry_round st e key tPut v hpath h)

theorem cacheWF_evictLoop (cfg : CacheCfg) (needed : Nat) :
    ∀ (fuel : Nat) (st : CacheState) (total : Nat), cacheWF st = true →
      cacheWF (evictLoop cfg needed fuel st total) = true := by
  intro fuel
  induction fuel with
  | zero => intro st total h; exact h
  | succ n ih =>
    intro st total h
    simp only [evictLoop]
    split
    · exact h
    · split
      · exact h
      · exact ih _ _ (cacheWF_removeEntry st _ h)

theorem cacheWF_ensure_space (cfg : CacheCfg) (now needed : Nat) (st : CacheState)
    (h : cacheWF st = true) : cacheWF (ensure_space cfg now needed st) = true :=
  cacheWF_evictLoop cfg needed _ _ _ (cacheWF_ttlSweep2 cfg now st h)

theorem cachePut_wf (cfg : CacheCfg) (now2 : Nat) (sid2 ver2 : String)
    (page2 dpi2 : Nat) (png2 : Bytes) (bbox2 : Option String) (st : CacheState)
    (hWF : cacheWF st = true) :
    cacheWF (cachePut cfg now2 sid2 ver2 page2 dpi2 png2 bbox2 st).2 = true := by
  by_cases hen : cfg.enabled = true
  · unfold cachePut
    rw [if_neg (by simp [hen])]
    dsimp only
    have hWF1 := cacheWF_ensure_space cfg now2 png2.length st hWF
    unfold cacheWF at hWF1 ⊢
    rw [Bool.and_eq_true] at hWF1 ⊢
    exact ⟨keysNodup_upsert _ _ _ _ _ _ hWF1.1, allpath_upsert _ _ _ _ _ hWF1.2⟩
  · unfold cachePut
    rw [if_pos (by simp [Bool.not_eq_true] at hen ⊢; exact hen)]
    exact hWF

theorem cachePut_frame (cfg : CacheCfg) (now2 : Nat) (sid2 ver2 : String)
    (page2 dpi2 : Nat) (png2 : Bytes) (bbox2 : Option String) (st : CacheState)
    (key : String) (tPut : Nat) (v : Bytes)
    (hne : make_cache_key sid2 ver2 page2 dpi2 bbox2 ≠ key)
    (hWF : cacheWF st = true)
    (h : (∃ r, elookup st.entries key = some r ∧ r.created_at = tPut ∧
          r.file_path = key ∧ flookup st.files key = some v) ∨
        elookup st.entries key = none) :
    (∃ r, elookup (cachePut cfg now2 sid2 ver2 page2 dpi2 png2 bbox2 st).2.entries key
          = some r ∧ r.created_at = tPut ∧ r.file_path = key ∧
        flookup (cachePut cfg now2 sid2 ver2 page2 dpi2 png2 bbox2 st).2.files key
          = some v) ∨
      elookup (cachePut cfg now2 sid2 ver2 page2 dpi2 png2 bbox2 st).2.entries key
        = none := by
  by_cases hen : cfg.enabled = true
  · unfold cachePut
    rw [if_neg (by simp [hen])]
    dsimp only
    have hsw := ttlSweep_round cfg now2 st key tPut v hWF h
    have hswWF := cacheWF_ttlSweep2 cfg now2 st hWF
    have hev := evictLoop_round cfg png2.length key tPut v
      (ttlSweep cfg now2 st).entries.length (ttlSweep cfg now2 st)
      (totalSize (ttlSweep cfg now2 st).entries) hswWF hsw
    have hs : ensure_space cfg now2 png2.length st
        = evictLoop cfg png2.length (ttlSweep cfg now2 st).entries.length
            (ttlSweep cfg now2 st) (totalSize (ttlSweep cfg now2 st).entries) := rfl
    rw [hs]
    rcases hev.2 with ⟨r, hr, hrc, hrp, hrf⟩ | hnone
    · left
      refine ⟨r, ?_, hrc, hrp, ?_⟩
      · show elookup (upsertEntry _ _ _ _ _ _) key = some r
        rw [elookup_upsert_other _ _ key _ _ _ _ hne]
        exact hr
      · show flookup (fwrite _ _ _) key = some v
        rw [flookup_fwrite_other _ _ key _ hne]
        exact hrf
    · right
      show elookup (upsertEntry _ _ _ _ _ _) key = none
      rw [elookup_upsert_other _ _ key _ _ _ _ hne]
      exact hnone
  · unfold cachePut
    rw [if_pos (by simp [Bool.not_eq_true] at hen ⊢; exact hen)]
    exact h

theorem applyPuts_frame (cfg : CacheCfg) (key : String) (tPut : Nat) (v : Bytes) :
    ∀ (ops : List PutOp) (st : CacheState), cacheWF st = true →
      (∀ op ∈ ops, putKey op ≠ key) →
      ((∃ r, elookup st.entries key = some r ∧ r.created_at = tPut ∧
          r.file_path = key ∧ flookup st.files key = some v) ∨
        elookup st.entries key = none) →
      cacheWF (applyPuts cfg ops st) = true ∧
      ((∃ r, elookup (applyPuts cfg ops st).entries key = some r ∧
          r.created_at = tPut ∧ r.file_path = key ∧
          flookup (applyPuts cfg ops st).files key = some v) ∨
        elookup (applyPuts cfg ops st).entries key = none) := by
  intro ops
  induction ops with
  | nil => intro st hWF _ h; exact ⟨hWF, h⟩
  | cons op rest ih =>
    intro st hWF hops h
    show cacheWF (applyPuts cfg rest _) = true ∧ _
    exact ih _
      (cachePut_wf cfg op.now op.sid op.ver op.page op.dpi op.png op.bbox st hWF)
      (fun x hx => hops x (List.mem_cons_of_mem op hx))
      (cachePut_frame cfg op.now op.sid op.ver op.page op.dpi op.png op.bbox st
        key tPut v (hops op (List.mem_cons_self op rest)) hWF h)

theorem cachePut_establishes (cfg : CacheCfg) (tPut : Nat) (sid ver : String)
    (page dpi : Nat) (v : Bytes) (bbox : Option String) (st : CacheState)
    (hen : cfg.enabled = true) :
    (cachePut cfg tPut sid ver page dpi v bbox st).1 = true ∧
    (∃ r, elookup (cachePut cfg tPut sid ver page dpi v bbox st).2.entries
          (make_cache_key sid ver page dpi bbox) = some r ∧
        r.created_at = tPut ∧ r.file_path = make_cache_key sid ver page dpi bbox ∧
        flookup (cachePut cfg tPut sid ver page dpi v bbox st).2.files
          (make_cache_key sid ver page dpi bbox) = some v) := by
  unfold cachePut
  rw [if_neg (by simp [hen])]
  dsimp only
  refine ⟨rfl, ⟨_, elookup_upsert_self _ _ _ _ _ _, rfl, rfl, ?_⟩⟩
  show flookup (fwrite _ _ _) _ = some v
  exact flookup_fwrite_self _ _ _

/-- C2: after a successful `RenderCacheManager.put` with key K (components
sid, ver, page, dpi, bbox) and payload v, a `get` with key K returns exactly
v, provided the intervening puts use different keys, no eviction removed the
entry (it is still present in the metadata table), and the TTL has not
elapsed at the time of the get. -/
theorem C2_put_get (cfg : CacheCfg) (st0 : CacheState) (sid ver : String)
    (page dpi : Nat) (v : Bytes) (bbox : Option String) (tPut tGet : Nat)
    (ops : List PutOp)
    (hen : cfg.enabled = true) (hWF : cacheWF st0 = true)
    (hops : ∀ op ∈ ops, putKey op ≠ make_cache_key sid ver page dpi bbox)
    (hlive : elookup (applyPuts cfg ops
          (cachePut cfg tPut sid ver page dpi v bbox st0).2).entries
        (make_cache_key sid ver page dpi bbox) ≠ none)
    (hTTL : ¬ tPut + cfg.ttl < tGet) :
    (cachePut cfg tPut sid ver page dpi v bbox st0).1 = true ∧
    (cacheGet cfg tGet sid ver page dpi bbox
        (applyPuts cfg ops (cachePut cfg tPut sid ver page dpi v bbox st0).2)).1
      = some v := by
  have hest := cachePut_establishes cfg tPut sid ver page dpi v bbox st0 hen
  refine ⟨hest.1, ?_⟩
  have hWF1 := cachePut_wf cfg tPut sid ver page dpi v bbox st0 hWF
  have hfr := applyPuts_frame cfg (make_cache_key sid ver page dpi bbox) tPut v
    ops _ hWF1 hops (Or.inl hest.2)
  rcases hfr.2 with ⟨r, hr, hrc, hrp, hrf⟩ | hnone
  · unfold cacheGet
    rw [if_neg (by simp [hen])]
    dsimp only
    rw [hr]
    dsimp only
    rw [if_neg (by rw [hrc]; exact hTTL)]
    rw [hrp, hrf]
  · exact absurd hnone hlive

theorem C2_put_get_witness :
    (cachePut ⟨true, 100, 10⟩ 0 "s" "v1" 0 150 [1, 2, 3] none ⟨[], []⟩).1 = true ∧
    (cacheGet ⟨true, 100, 10⟩ 5 "s" "v1" 0 150 none
        (applyPuts ⟨true, 100, 10⟩ []
          (cachePut ⟨true, 100, 10⟩ 0 "s" "v1" 0 150 [1, 2, 3] none ⟨[], []⟩).2)).1
      = some [1, 2, 3] :=
  C2_put_get ⟨true, 100, 10⟩ ⟨[], []⟩ "s" "v1" 0 150 [1, 2, 3] none 0 5 []
    rfl (by decide) (by intro op hop; exact absurd hop (List.not_mem_nil op))
    (by decide) (by decide)
